import Mathlib

/-!
Verification of the graph_catalog crawler against its specification.

The Python sources (catalog_util.py, create_course_dictionary.py,
get_catalog_summary_json.py, extract_schools.py) are shallowly embedded
below.  Pure string manipulation is translated to functions on
List Char / String; calls into the Python standard library
(urllib.parse, re, requests) are translated by transcribing the
behaviour of those library routines at the ASCII level; network fetches
become an explicit environment argument mapping a URL to a fetch
outcome.
-/

namespace GraphCatalog

/-! ### ASCII character classes used by the Python string routines -/

/-- Whitespace characters stripped by Python str.strip with no argument,
which are also the characters matched by the regex class \s on str
patterns: the code points for which str.isspace holds (verified by
enumerating all code points on CPython 3.11.6): 0x09 to 0x0d, 0x1c to
0x20, 0x85, 0xa0, 0x1680, 0x2000 to 0x200a, 0x2028, 0x2029, 0x202f,
0x205f and 0x3000. -/
def pyWhitespace (c : Char) : Bool :=
  (9 ≤ c.toNat && c.toNat ≤ 13) || (28 ≤ c.toNat && c.toNat ≤ 32) ||
  c.toNat = 0x85 || c.toNat = 0xa0 || c.toNat = 0x1680 ||
  (0x2000 ≤ c.toNat && c.toNat ≤ 0x200a) || c.toNat = 0x2028 || c.toNat = 0x2029 ||
  c.toNat = 0x202f || c.toNat = 0x205f || c.toNat = 0x3000

/-- Characters removed from both ends of a url by urllib.parse.urlsplit:
C0 control characters and space (code points up to 0x20). -/
def c0OrSpace (c : Char) : Bool := c.toNat ≤ 0x20

/-- Bytes removed everywhere inside a url by urllib.parse.urlsplit
(tab, carriage return, newline). -/
def unsafeByte (c : Char) : Bool := c = '\t' || c = '\x0d' || c = '\n'

/-- Characters allowed in a url scheme by urllib.parse
(letters, digits, plus, minus, dot). -/
def schemeChar (c : Char) : Bool :=
  c.isAlpha || c.isDigit || c = '+' || c = '-' || c = '.'

/-- Model of Python str.strip with no argument: remove leading and
trailing whitespace. -/
def pyStrip (l : List Char) : List Char :=
  ((l.dropWhile pyWhitespace).reverse.dropWhile pyWhitespace).reverse

/-- Model of Python str.lower at the ASCII level. -/
def pyLower (l : List Char) : List Char := l.map Char.toLower

/-- Model of Python str.upper at the ASCII level. -/
def pyUpper (l : List Char) : List Char := l.map Char.toUpper

/-! ### Model of urllib.parse

The functions below transcribe the splitting logic of CPython
urllib.parse: urlsplit, the params split of urlparse, urlunsplit,
urlunparse and urljoin, specialised to allow_fragments = True and
restricted to ASCII text.
-/

/-- Result of urlparse: the six components of a url. -/
structure ParseResult where
  scheme : List Char
  netloc : List Char
  path : List Char
  params : List Char
  query : List Char
  fragment : List Char
deriving Repr, DecidableEq

/-- Condition under which urlsplit recognises a scheme: the url has a
colon at a positive position and everything before the first colon is a
letter followed by scheme characters. -/
def fireScheme (url : List Char) : Bool :=
  let before := url.takeWhile (· ≠ ':')
  (url.contains ':') && (!before.isEmpty) &&
    (match before with
     | [] => false
     | c :: _ => c.isAlpha) && before.all schemeChar

/-- Scheme splitting step of urlsplit: on success the scheme is
lower-cased and the remainder follows the first colon. -/
def splitScheme (url : List Char) : List Char × List Char :=
  if fireScheme url then
    (pyLower (url.takeWhile (· ≠ ':')), (url.dropWhile (· ≠ ':')).tail)
  else ([], url)

/-- Delimiters ending the netloc portion of a url. -/
def netlocDelim (c : Char) : Bool := c = '/' || c = '?' || c = '#'

/-- Netloc splitting step of urlsplit, applied after a leading
double slash: the netloc runs to the first slash, question mark or
hash. -/
def splitNetloc (url : List Char) : List Char × List Char :=
  (url.takeWhile (fun c => !netlocDelim c), url.dropWhile (fun c => !netlocDelim c))

/-- Netlocs on which CPython 3.11 urlsplit is exception-free.  After
splitting off the netloc, urlsplit raises ValueError in three cases,
all confined to the netloc: "Invalid IPv6 URL" when the netloc contains
an unbalanced square bracket, a bracketed-host validation error when it
contains a balanced pair of brackets enclosing something that is not an
IPv6 or IPvFuture address, and a _checknetloc error for some non-ASCII
netlocs whose NFKC normalization introduces a delimiter.  A netloc
containing no square bracket and only ASCII characters passes all
three checks, so the functions below, which model only the normal
return path of urlsplit, agree with CPython on every url whose netloc
satisfies this predicate. -/
def netlocSafe (netloc : List Char) : Bool :=
  !netloc.contains '[' && !netloc.contains ']' &&
    netloc.all (fun c => c.toNat ≤ 127)

/-- Split a list at the first occurrence of a character: the part
before it and the part after it (the whole list and nothing when the
character does not occur). -/
def splitOnceChar (c : Char) (l : List Char) : List Char × List Char :=
  (l.takeWhile (· ≠ c), (l.dropWhile (· ≠ c)).tail)

/-- Model of urllib.parse.urlsplit with a default scheme and
allow_fragments = True: left-strip C0 controls and space, remove tab,
carriage return and newline, then split off scheme, netloc, fragment
and query.  The model is total and follows the normal return path of
urlsplit; on a url whose netloc fails netlocSafe, CPython may instead
raise ValueError, so statements quantifying over all urls carry a
netlocSafe hypothesis. -/
def urlsplitM (dfltScheme : List Char) (url0 : List Char) : ParseResult :=
  let url1 := url0.dropWhile c0OrSpace
  let url2 := url1.filter (fun c => !unsafeByte c)
  let sp := splitScheme url2
  let scheme := if sp.1.isEmpty then dfltScheme else sp.1
  let url3 := sp.2
  let np :=
    if url3.take 2 = ['/', '/'] then splitNetloc (url3.drop 2) else ([], url3)
  let fr := if np.2.contains '#' then splitOnceChar '#' np.2 else (np.2, [])
  let qu := if fr.1.contains '?' then splitOnceChar '?' fr.1 else (fr.1, [])
  ⟨scheme, np.1, qu.1, [], qu.2, fr.2⟩

/-- Params split of urlparse: when the segment after the last slash
(or, with no slash, the whole path) contains a semicolon, the part
after the first such semicolon is split off as params. -/
def splitparamsM (p : List Char) : List Char × List Char :=
  if p.contains '/' then
    let pre := (p.reverse.dropWhile (· ≠ '/')).reverse
    let seg := (p.reverse.takeWhile (· ≠ '/')).reverse
    if seg.contains ';' then
      (pre ++ seg.takeWhile (· ≠ ';'), (seg.dropWhile (· ≠ ';')).tail)
    else (p, [])
  else if p.contains ';' then
    (p.takeWhile (· ≠ ';'), (p.dropWhile (· ≠ ';')).tail)
  else (p, [])

/-- Model of urllib.parse.urlparse: urlsplit followed by the params
split of the path. -/
def urlparseM (dfltScheme : List Char) (url : List Char) : ParseResult :=
  let r := urlsplitM dfltScheme url
  let pp := splitparamsM r.path
  { r with path := pp.1, params := pp.2 }

/-- Schemes for which urljoin performs relative resolution
(the uses_relative list of urllib.parse). -/
def usesRelative : List (List Char) :=
  ["", "ftp", "http", "gopher", "nntp", "imap", "wais", "file", "https",
   "shttp", "mms", "prospero", "rtsp", "rtspu", "sftp", "svn", "svn+ssh",
   "ws", "wss"].map String.toList

/-- Schemes for which urljoin uses the netloc
(the uses_netloc list of urllib.parse). -/
def usesNetloc : List (List Char) :=
  ["", "ftp", "http", "gopher", "nntp", "telnet", "imap", "wais", "file",
   "mms", "https", "shttp", "snews", "prospero", "rtsp", "rtspu", "rsync",
   "svn", "svn+ssh", "sftp", "nfs", "git", "git+ssh", "ws", "wss"].map
    String.toList

/-- Model of urllib.parse.urlunsplit (CPython 3.11): the double slash
is emitted when the netloc is nonempty, or when the scheme is a
netloc-using scheme and the path does not already start with a double
slash. -/
def urlunsplitM (scheme netloc url query fragment : List Char) : List Char :=
  let url :=
    if !netloc.isEmpty ||
        (!scheme.isEmpty && usesNetloc.contains scheme && url.take 2 ≠ ['/', '/']) then
      let url := if !url.isEmpty && url.head? ≠ some '/' then '/' :: url else url
      '/' :: '/' :: (netloc ++ url)
    else url
  let url := if !scheme.isEmpty then scheme ++ ':' :: url else url
  let url := if !query.isEmpty then url ++ '?' :: query else url
  if !fragment.isEmpty then url ++ '#' :: fragment else url

/-- Model of urllib.parse.urlunparse. -/
def urlunparseM (scheme netloc path params query fragment : List Char) : List Char :=
  let url := if !params.isEmpty then path ++ ';' :: params else path
  urlunsplitM scheme netloc url query fragment

/-- Split a list on a separator character into segments, Python
str.split with a single character: the number of segments is the number
of separators plus one. -/
def splitChar (sep : Char) : List Char → List (List Char)
  | [] => [[]]
  | c :: t =>
    let r := splitChar sep t
    if c = sep then [] :: r
    else
      match r with
      | [] => [[c]]
      | s :: rest => (c :: s) :: rest

/-- Join segments with a separator character, Python str.join with a
one-character separator. -/
def joinChar (sep : Char) : List (List Char) → List Char
  | [] => []
  | [s] => s
  | s :: rest => s ++ sep :: joinChar sep rest

/-- Dot-segment resolution loop of urljoin: double dot pops the last
resolved segment, single dot is skipped, anything else is appended.
The accumulator is kept reversed. -/
def resolveSegs (acc : List (List Char)) : List (List Char) → List (List Char)
  | [] => acc.reverse
  | seg :: rest =>
    if seg = ['.', '.'] then resolveSegs acc.tail rest
    else if seg = ['.'] then resolveSegs acc rest
    else resolveSegs (seg :: acc) rest

/-- Model of urllib.parse.urljoin with allow_fragments = True,
transcribing the CPython algorithm. -/
def urljoinM (base url : List Char) : List Char :=
  if base.isEmpty then url
  else if url.isEmpty then base
  else
    let b := urlparseM [] base
    let r := urlparseM b.scheme url
    if r.scheme ≠ b.scheme || !usesRelative.contains r.scheme then url
    else
      let netloc :=
        if usesNetloc.contains r.scheme then
          if !r.netloc.isEmpty then none else some b.netloc
        else some r.netloc
      match netloc with
      | none =>
        urlunparseM r.scheme r.netloc r.path r.params r.query r.fragment
      | some netloc =>
        if r.path.isEmpty && r.params.isEmpty then
          let query := if r.query.isEmpty then b.query else r.query
          urlunparseM r.scheme netloc b.path b.params query r.fragment
        else
          let baseParts0 := splitChar '/' b.path
          let baseParts :=
            if baseParts0.getLast? ≠ some [] then baseParts0.dropLast
            else baseParts0
          let segments :=
            if r.path.take 1 = ['/'] then splitChar '/' r.path
            else
              let segs := baseParts ++ splitChar '/' r.path
              match segs with
              | [] => []
              | first :: rest =>
                match rest.getLast? with
                | none => [first]
                | some last =>
                  first :: (rest.dropLast.filter (fun s => !s.isEmpty)) ++ [last]
          let resolved := resolveSegs [] segments
          let resolved :=
            if segments.getLast? = some ['.'] || segments.getLast? = some ['.', '.'] then
              resolved ++ [[]]
            else resolved
          let joined := joinChar '/' resolved
          let path := if joined.isEmpty then ['/'] else joined
          urlunparseM r.scheme netloc path r.params r.query r.fragment

/-- String wrapper for urljoin, matching the call sites
urljoin(page_url, href) in the sources. -/
def urljoin (base url : String) : String :=
  String.mk (urljoinM base.toList url.toList)

/-! ### catalog_util.normalize_url

Transcription of normalize_url from src/catalog_util.py (an identical
copy appears in src/create_course_dictionary.py and
src/extract_schools.py):

  p = urlparse(u.strip())
  scheme = p.scheme.lower()
  netloc = p.netloc.lower()
  path = p.path or "/"
  if not path.endswith("/"):
      if "." not in path.split("/")[-1]:
          path = path + "/"
  return urlunparse((scheme, netloc, path, "", "", ""))
-/

/-- Last element of path.split("/"): the segment after the last slash
(the whole path when it has no slash). -/
def lastSegment (p : List Char) : List Char :=
  (p.reverse.takeWhile (· ≠ '/')).reverse

/-- Trailing slash adjustment of normalize_url: append a slash unless
the path already ends with one or its last segment contains a dot. -/
def fixPath (p : List Char) : List Char :=
  if p.getLast? = some '/' then p
  else if (lastSegment p).contains '.' then p
  else p ++ ['/']

/-- Components produced by normalize_url before reassembly. -/
def normComponents (l : List Char) : List Char × List Char × List Char :=
  let pr := urlparseM [] (pyStrip l)
  (pyLower pr.scheme, pyLower pr.netloc,
   fixPath (if pr.path.isEmpty then ['/'] else pr.path))

/-- Character-list core of normalize_url. -/
def normChars (l : List Char) : List Char :=
  let c := normComponents l
  urlunparseM c.1 c.2.1 c.2.2 [] [] []

/-- Model of catalog_util.normalize_url. -/
def normalize_url (u : String) : String :=
  String.mk (normChars u.toList)

/-! ### Model of the course-code regular expression

Both parse_prerequisite_courses and
extract_course_ids_from_program_requirements scan upper-cased text with

  re.findall(r"..." )

whose pattern is: a word boundary, three or four capital letters, an
optional hyphen or whitespace separator, exactly three digits, an
optional trailing capital letter, and a word boundary.  The matcher
below implements that pattern with the backtracking order of the Python
engine (greedy quantifiers, leftmost non-overlapping matches), at the
ASCII level.
-/

/-- Word characters for the word-boundary assertion, ASCII model. -/
def isWordChar (c : Char) : Bool := c.isAlphanum || c = '_'

/-- Whether a list starts with a word character; an empty list counts
as a non-word position. -/
def headIsWord (cs : List Char) : Bool :=
  match cs with
  | [] => false
  | c :: _ => isWordChar c

/-- Capital letters A through Z. -/
def isUpperAZ (c : Char) : Bool := 'A' ≤ c && c ≤ 'Z'

/-- Separator class of the course-code pattern: hyphen or whitespace. -/
def sepChar (c : Char) : Bool := c = '-' || pyWhitespace c

/-- Consume exactly n characters of a class: returns the consumed
characters and the remainder. -/
def takeClass (p : Char → Bool) : Nat → List Char → Option (List Char × List Char)
  | 0, cs => some ([], cs)
  | _ + 1, [] => none
  | n + 1, c :: cs =>
    if p c then (takeClass p n cs).map (fun r => (c :: r.1, r.2)) else none

/-- Final word-boundary assertion after a match: the remainder must not
start with a word character (the last matched character is always a
digit or a letter). -/
def matchEnd (acc rest : List Char) : Option (List Char × List Char) :=
  if headIsWord rest then none else some (acc, rest)

/-- Optional trailing capital letter, tried greedily. -/
def matchTrail (acc rest : List Char) : Option (List Char × List Char) :=
  (match rest with
   | c :: t => if isUpperAZ c then matchEnd (acc ++ [c]) t else none
   | [] => none) <|>
  matchEnd acc rest

/-- Exactly three digits, then the optional trailing letter. -/
def matchDigits (acc rest : List Char) : Option (List Char × List Char) :=
  match takeClass Char.isDigit 3 rest with
  | none => none
  | some dr => matchTrail (acc ++ dr.1) dr.2

/-- Optional separator, tried greedily, then the digits. -/
def matchSep (acc rest : List Char) : Option (List Char × List Char) :=
  (match rest with
   | c :: t => if sepChar c then matchDigits (acc ++ [c]) t else none
   | [] => none) <|>
  matchDigits acc rest

/-- Exactly n capital letters, then the rest of the pattern. -/
def matchLetters (n : Nat) (cs : List Char) : Option (List Char × List Char) :=
  match takeClass isUpperAZ n cs with
  | none => none
  | some lr => matchSep lr.1 lr.2

/-- Attempt to match the full course-code pattern at the current
position, given whether the previous character was a word character.
Four letters are tried before three, per greedy repetition. -/
def matchCourse (prevWord : Bool) (cs : List Char) : Option (List Char × List Char) :=
  if prevWord = headIsWord cs then none
  else matchLetters 4 cs <|> matchLetters 3 cs

theorem takeClass_eq_append {p : Char → Bool} :
    ∀ {n : Nat} {cs a r : List Char},
      takeClass p n cs = some (a, r) → cs = a ++ r ∧ a.length = n := by
  intro n
  induction n with
  | zero =>
    intro cs a r h
    simp [takeClass] at h
    simp [h.1, h.2]
  | succ n ih =>
    intro cs a r h
    match cs with
    | [] => simp [takeClass] at h
    | c :: t =>
      simp [takeClass] at h
      rcases h with ⟨hc, h⟩
      match ht : takeClass p n t with
      | none => rw [ht] at h; simp at h
      | some ⟨a1, r1⟩ =>
        rw [ht] at h
        simp at h
        obtain ⟨x, ⟨hx1, hx2⟩, hx3⟩ := h
        have := ih ht
        rw [← hx3, ← hx2, ← hx1]
        simp [this.1, this.2]

theorem matchEnd_eq_append {acc rest a r : List Char}
    (h : matchEnd acc rest = some (a, r)) : a = acc ∧ r = rest := by
  simp [matchEnd] at h
  exact ⟨h.2.1.symm, h.2.2.symm⟩

theorem matchTrail_eq_append {acc rest a r : List Char}
    (h : matchTrail acc rest = some (a, r)) :
    ∃ d, acc ++ d = a ∧ d ++ r = rest := by
  simp only [matchTrail] at h
  rcases (Option.orElse_eq_some _ _ _).mp h with h1 | ⟨_, h1⟩
  · match rest with
    | [] => simp at h1
    | c :: t =>
      simp at h1
      rcases h1 with ⟨_, h1⟩
      have := matchEnd_eq_append h1
      exact ⟨[c], by simp [this.1], by simp [this.2]⟩
  · have := matchEnd_eq_append h1
    exact ⟨[], by simp [this.1], by simp [this.2]⟩

theorem matchDigits_eq_append {acc rest a r : List Char}
    (h : matchDigits acc rest = some (a, r)) :
    ∃ d, acc ++ d = a ∧ d ++ r = rest := by
  simp only [matchDigits] at h
  match ht : takeClass Char.isDigit 3 rest with
  | none => rw [ht] at h; simp at h
  | some ⟨d0, r0⟩ =>
    rw [ht] at h
    simp at h
    have hsplit := (takeClass_eq_append ht).1
    rcases matchTrail_eq_append h with ⟨d, hd1, hd2⟩
    exact ⟨d0 ++ d, by rw [← hd1]; simp, by rw [hsplit, ← hd2]; simp⟩

theorem matchSep_eq_append {acc rest a r : List Char}
    (h : matchSep acc rest = some (a, r)) :
    ∃ d, acc ++ d = a ∧ d ++ r = rest := by
  simp only [matchSep] at h
  rcases (Option.orElse_eq_some _ _ _).mp h with h1 | ⟨_, h1⟩
  · match rest with
    | [] => simp at h1
    | c :: t =>
      simp at h1
      rcases h1 with ⟨_, h1⟩
      rcases matchDigits_eq_append h1 with ⟨d, hd1, hd2⟩
      exact ⟨c :: d, by rw [← hd1]; simp, by rw [← hd2]; simp⟩
  · exact matchDigits_eq_append h1

theorem matchLetters_eq_append {n : Nat} {cs a r : List Char}
    (h : matchLetters n cs = some (a, r)) :
    a ++ r = cs ∧ a.length ≥ n := by
  simp only [matchLetters] at h
  match ht : takeClass isUpperAZ n cs with
  | none => rw [ht] at h; simp at h
  | some ⟨l0, r0⟩ =>
    rw [ht] at h
    simp at h
    have hsplit := takeClass_eq_append ht
    rcases matchSep_eq_append h with ⟨d, hd1, hd2⟩
    constructor
    · rw [← hd1, hsplit.1, ← hd2]; simp
    · rw [← hd1]
      simp [hsplit.2]

theorem matchCourse_consumed {prevWord : Bool} {cs a r : List Char}
    (h : matchCourse prevWord cs = some (a, r)) :
    a ++ r = cs ∧ a ≠ [] := by
  simp only [matchCourse] at h
  split at h
  · simp at h
  · rcases (Option.orElse_eq_some _ _ _).mp h with h1 | ⟨_, h1⟩ <;>
    · rcases matchLetters_eq_append h1 with ⟨he, hn⟩
      refine ⟨he, fun hnil => ?_⟩
      rw [hnil] at hn
      simp at hn

theorem matchCourse_rest_lt {prevWord : Bool} {cs a r : List Char}
    (h : matchCourse prevWord cs = some (a, r)) : r.length < cs.length := by
  rcases matchCourse_consumed h with ⟨he, hne⟩
  have hpos : 0 < a.length := List.length_pos.mpr hne
  rw [← he, List.length_append]
  omega

/-- Scan for all non-overlapping matches of the course-code pattern,
left to right; prevWord records whether the character before the
current position is a word character (after a match it is true because
a match always ends in a digit or letter).  The fuel argument makes
the recursion structural; every step consumes at least one character
(matchCourse_rest_lt), so fuel exceeding the text length is never
exhausted. -/
def scanCourseAux : Nat → Bool → List Char → List (List Char)
  | 0, _, _ => []
  | fuel + 1, prevWord, cs =>
    match matchCourse prevWord cs with
    | some ar => ar.1 :: scanCourseAux fuel true ar.2
    | none =>
      match cs with
      | [] => []
      | c :: t => scanCourseAux fuel (isWordChar c) t

/-- Scanner entry point with sufficient fuel. -/
def scanCourse (prevWord : Bool) (cs : List Char) : List (List Char) :=
  scanCourseAux (cs.length + 1) prevWord cs

theorem scanCourseAux_fuel {fuel : Nat} {prevWord : Bool} {cs : List Char}
    (h : cs.length < fuel) :
    scanCourseAux fuel prevWord cs = scanCourse prevWord cs := by
  induction fuel using Nat.strong_induction_on generalizing prevWord cs with
  | _ fuel ih =>
    match fuel with
    | 0 => omega
    | fuel + 1 =>
      show scanCourseAux (fuel + 1) prevWord cs = scanCourseAux (cs.length + 1) prevWord cs
      simp only [scanCourseAux]
      match hm : matchCourse prevWord cs with
      | some ar =>
        have hlt := matchCourse_rest_lt hm
        have h1 : scanCourseAux fuel true ar.2 = scanCourse true ar.2 :=
          ih fuel (by omega) (by omega)
        have h2 : scanCourseAux cs.length true ar.2 = scanCourse true ar.2 :=
          ih cs.length (by omega) (by omega)
        simp [h1, h2]
      | none =>
        match cs with
        | [] => simp
        | c :: t =>
          have h1 : scanCourseAux fuel (isWordChar c) t = scanCourse (isWordChar c) t :=
            ih fuel (by omega) (by simp at h; omega)
          have h2 : scanCourseAux (t.length + 1) (isWordChar c) t = scanCourse (isWordChar c) t :=
            ih (t.length + 1) (by simp at h; omega) (by omega)
          simp [h1, h2]

/-- Model of re.findall with the course-code pattern on a string. -/
def findCourseTokens (s : String) : List String :=
  (scanCourse false s.toList).map String.mk

/-! ### Pages and fetching

A fetched page is modelled as its parsed form: the element regions
relevant to sidebar location, the course headings, the primary heading
and title, and its full visible text.  The network is an explicit
environment mapping each URL to an outcome.
-/

/-- An anchor element with an href attribute and its visible text. -/
structure Anchor where
  href : String
  text : String
deriving Repr, DecidableEq

/-- An element of the document, as seen by the sidebar selectors: its
tag name, id attribute, class list, role attribute, and the anchors
contained in it, in document order. -/
structure Region where
  tag : String
  idAttr : Option String
  classes : List String
  roleAttr : Option String
  anchors : List Anchor
deriving Repr, DecidableEq

/-- Context for the prerequisite label span found inside a course list
item: the text of its next sibling when that sibling is a plain
string, and the text of its parent element. -/
structure PrereqSpan where
  nextSiblingText : Option String
  parentText : Option String
deriving Repr, DecidableEq

/-- A course heading element (h3 with the course-title class): its
stripped visible text and, when the heading sits inside a list item,
the prerequisite label span found there (none: no list-item ancestor;
some none: a list item without a matching label span). -/
structure CourseHeading where
  text : String
  liSpan : Option (Option PrereqSpan)
deriving Repr, DecidableEq

/-- A parsed page: the regions in document order, the course headings
in document order, the first h1 text, the title text, and the full
visible text of the page. -/
structure Page where
  regions : List Region
  headings : List CourseHeading
  h1Text : Option String
  titleText : Option String
  fullText : String
deriving Repr, DecidableEq

/-- Body of an HTTP response: empty models a falsy (empty) document,
page a parsed document. -/
inductive Doc where
  | empty : Doc
  | page : Page → Doc
deriving Repr, DecidableEq

/-- Outcome of requests.get for one URL: exc models any
requests.RequestException raised during the transfer (timeout,
connection error, redirect loop); response carries the final HTTP
status code and the body. -/
inductive FetchOutcome where
  | exc : FetchOutcome
  | response : Nat → Doc → FetchOutcome
deriving Repr, DecidableEq

/-- Network environment: what each URL returns. -/
def Env : Type := String → FetchOutcome

/-- Model of catalog_util.fetch_html: requests.get with
raise_for_status, catching requests.RequestException and returning
None; raise_for_status raises exactly for status codes 400 through
599.  The post-fetch sleep has no observable effect on the value. -/
def fetch_html (env : Env) (url : String) : Option Doc :=
  match env url with
  | .exc => none
  | .response status doc =>
    if 400 ≤ status ∧ status ≤ 599 then none else some doc

theorem dropWhile_len_le (p : Char → Bool) (l : List Char) :
    (l.dropWhile p).length ≤ l.length :=
  (List.dropWhile_suffix p).sublist.length_le

/-! ### catalog_util.remove_parenthetical

Transcription of

  while "(" in text:
      text = re.sub(r"...", "", text)
  text = re.sub(r"whitespace-run", " ", text).strip()

where the first pattern matches an opening parenthesis, characters that
are not parentheses, and a closing parenthesis.  One re.sub pass
removes all non-overlapping innermost parenthetical spans.  When the
text contains an opening parenthesis but no such span, re.sub changes
nothing and the Python loop never terminates; the model returns none
for that case.
-/

/-- Scan the text after an opening parenthesis: if a closing
parenthesis appears before any further opening parenthesis, return the
remainder after it; otherwise the regex does not match here. -/
def scanInner : List Char → Option (List Char)
  | [] => none
  | c :: t =>
    if c = ')' then some t
    else if c = '(' then none
    else scanInner t

theorem scanInner_length : ∀ {t r : List Char}, scanInner t = some r →
    r.length < t.length := by
  intro t
  induction t with
  | nil => intro r h; simp [scanInner] at h
  | cons c t ih =>
    intro r h
    simp [scanInner] at h
    split at h
    · simp at h; simp [← h]
    · split at h
      · simp at h
      · have := ih h; simp; omega

/-- One re.sub pass: remove every non-overlapping innermost
parenthetical span, scanning left to right.  The fuel argument makes
the recursion structural; every step consumes at least one character
(scanInner_length), so fuel exceeding the text length is never
exhausted. -/
def subParenOnceAux : Nat → List Char → List Char
  | 0, l => l
  | _ + 1, [] => []
  | fuel + 1, c :: t =>
    if c = '(' then
      match scanInner t with
      | some r => subParenOnceAux fuel r
      | none => '(' :: subParenOnceAux fuel t
    else c :: subParenOnceAux fuel t

/-- Entry point of the re.sub pass with sufficient fuel. -/
def subParenOnce (l : List Char) : List Char :=
  subParenOnceAux (l.length + 1) l

/-- Iterate subParenOnce while an opening parenthesis remains; none
models the nonterminating Python loop (no progress although an opening
parenthesis remains).  The fuel bound length + 1 is sufficient because
every productive pass removes at least one opening parenthesis. -/
def removeParenLoop : Nat → List Char → Option (List Char)
  | 0, l => if l.contains '(' then none else some l
  | fuel + 1, l =>
    if l.contains '(' then
      let l2 := subParenOnce l
      if l2 = l then none else removeParenLoop fuel l2
    else some l

/-- Collapse every whitespace run to a single space (re.sub on a
whitespace-run pattern).  The fuel argument makes the recursion
structural; every step consumes at least one character, so fuel
exceeding the text length is never exhausted. -/
def collapseWsAux : Nat → List Char → List Char
  | 0, l => l
  | _ + 1, [] => []
  | fuel + 1, c :: t =>
    if pyWhitespace c then ' ' :: collapseWsAux fuel (t.dropWhile pyWhitespace)
    else c :: collapseWsAux fuel t

/-- Entry point of the whitespace collapse with sufficient fuel. -/
def collapseWs (l : List Char) : List Char :=
  collapseWsAux (l.length + 1) l

/-- Model of remove_parenthetical (catalog_util.py and duplicate
copies); none models divergence of the while loop on text with an
opening parenthesis that is never part of an innermost span. -/
def remove_parenthetical (s : String) : Option String :=
  (removeParenLoop (s.toList.length + 1) s.toList).map
    (fun l => String.mk (pyStrip (collapseWs l)))

/-! ### get_catalog_summary_json.parse_prerequisite_courses -/

/-- Normalisation applied to a matched token: remove spaces and
hyphens (str.replace with empty replacement). -/
def stripSpaceHyphen (s : String) : String :=
  String.mk (s.toList.filter (fun c => c ≠ ' ' && c ≠ '-'))

/-- Normalisation applied to a dictionary key for comparison: remove
spaces and hyphens, then upper-case. -/
def normalizedDictId (courseId : String) : String :=
  String.mk (pyUpper (courseId.toList.filter (fun c => c ≠ ' ' && c ≠ '-')))

/-- Model of parse_prerequisite_courses from
src/get_catalog_summary_json.py.  The course dictionary is an
association list whose order is Python dict insertion order; each
matched token is looked up by scanning the keys in order and taking
the first key whose normalised form matches, and tokens with no
matching key contribute nothing.  The prerequisite argument is an
Option because the aggregation passes course_data.get, which can be
None; None and the empty string are both falsy. -/
def parse_prerequisite_courses (prereq : Option String)
    (courseDict : List (String × String)) : List String :=
  match prereq with
  | none => []
  | some ps =>
    if ps = "" then []
    else
      (findCourseTokens (String.mk (pyUpper ps.toList))).filterMap
        (fun m =>
          (courseDict.find?
            (fun kv => normalizedDictId kv.1 = stripSpaceHyphen m)).map
            (fun kv => kv.1))

/-! ### get_catalog_summary_json.extract_course_ids_from_program_requirements -/

/-- Token-collection loop of
extract_course_ids_from_program_requirements: for each matched token,
scan the dictionary keys in order for the first key whose normalised
form matches and that has not been collected yet; note that a
matching key that was already collected does not stop the scan. -/
def collectReqIds (courseDict : List (String × String)) :
    List String → List String → List String
  | [], _ => []
  | m :: ms, seen =>
    match courseDict.find?
        (fun kv =>
          normalizedDictId kv.1 = stripSpaceHyphen m && !seen.contains kv.1) with
    | some kv => kv.1 :: collectReqIds courseDict ms (seen ++ [kv.1])
    | none => collectReqIds courseDict ms seen

/-- Model of extract_course_ids_from_program_requirements: fetch the
Program Requirements page, scan its full visible text (upper-cased)
for course-code tokens, and collect first-seen matching dictionary
keys in order of appearance. -/
def extract_course_ids_from_program_requirements (env : Env)
    (progReqUrl : String) (courseDict : List (String × String)) : List String :=
  match fetch_html env progReqUrl with
  | none => []
  | some .empty => []
  | some (.page p) =>
    collectReqIds courseDict
      (findCourseTokens (String.mk (pyUpper p.fullText.toList))) []

/-! ### catalog_util.extract_course_titles -/

/-- Substring membership, Python in operator on strings. -/
def containsSub (l sub : List Char) : Bool :=
  l.tails.any (fun t => sub.isPrefixOf t)

/-- Case-insensitive literal match of a pattern at the head of the
text; on success returns the remainder. -/
def matchCI : List Char → List Char → Option (List Char)
  | [], t => some t
  | _ :: _, [] => none
  | p :: ps, c :: t => if p.toLower = c.toLower then matchCI ps t else none

/-- Match of the label pattern (the word Pre-requisite, an optional s,
an optional colon, then any whitespace run), case-insensitively, at
the head of the text; the optional pieces are greedy and nothing after
them can fail, so no backtracking is needed. -/
def matchPrereqPat (l : List Char) : Option (List Char) :=
  match matchCI ("Pre-requisite".toList) l with
  | none => none
  | some r1 =>
    let r2 := match r1 with
      | 's' :: t => t
      | 'S' :: t => t
      | _ => r1
    let r3 := match r2 with
      | ':' :: t => t
      | _ => r2
    some (r3.dropWhile pyWhitespace)

/-- Find the first match of the label pattern in the text: returns the
text before the match and the remainder after it. -/
def scanPrereq : List Char → Option (List Char × List Char)
  | [] => none
  | c :: t =>
    match matchPrereqPat (c :: t) with
    | some rest => some ([], rest)
    | none => (scanPrereq t).map (fun pr => (c :: pr.1, pr.2))

/-- Text recovered from the parent of the label span: when the parent
text contains the literal label, split it on the label pattern and
take the piece after the first match, stripped and truncated at the
first line break (transcribes the elif branch of
extract_course_titles). -/
def prereqFromParent : Option String → String
  | none => ""
  | some ptxt =>
    if containsSub ptxt.toList "Pre-requisites".toList ||
        containsSub ptxt.toList "Pre-requisite".toList then
      match scanPrereq ptxt.toList with
      | some pr =>
        let part1 :=
          match scanPrereq pr.2 with
          | some pr2 => pr2.1
          | none => pr.2
        String.mk (pyStrip ((pyStrip part1).takeWhile (· ≠ '\n')))
      | none => ""
    else ""

/-- Prerequisite text recovered from the label span: the stripped next
sibling when it is a nonempty string, otherwise the parent-text
fallback. -/
def spanPrereqText (sp : PrereqSpan) : String :=
  match sp.nextSiblingText with
  | some s =>
    if s ≠ "" then String.mk (pyStrip s.toList)
    else prereqFromParent sp.parentText
  | none => prereqFromParent sp.parentText

/-- Prerequisites field of an emitted record: present when a list-item
ancestor exists, a label span was found there, and the recovered text
is nonempty. -/
def headingPrereqs (h : CourseHeading) : Option String :=
  match h.liSpan with
  | none => none
  | some none => none
  | some (some sp) =>
    let t := spanPrereqText sp
    if t ≠ "" then some t else none

/-- A raw course extraction as produced by extract_course_titles. -/
structure RawCourse where
  course_id : String
  course_title : String
  prerequisites : Option String
deriving Repr, DecidableEq

/-- Split of the cleaned title on the first space
(str.split with maxsplit one), with both parts stripped. -/
def mkRecordParts (cleaned : List Char) : String × String :=
  if cleaned.contains ' ' then
    (String.mk (pyStrip (cleaned.takeWhile (· ≠ ' '))),
     String.mk (pyStrip ((cleaned.dropWhile (· ≠ ' ')).tail)))
  else (String.mk (pyStrip cleaned), "")

/-- Heading loop of extract_course_titles: skip headings with empty
text or whose cleaned title is empty, otherwise emit a record; none
models divergence of remove_parenthetical. -/
def extractRecords : List CourseHeading → Option (List RawCourse)
  | [] => some []
  | h :: hs =>
    if h.text = "" then extractRecords hs
    else
      match remove_parenthetical h.text with
      | none => none
      | some cleaned =>
        if cleaned = "" then extractRecords hs
        else
          match extractRecords hs with
          | none => none
          | some rest =>
            let parts := mkRecordParts cleaned.toList
            some (⟨parts.1, parts.2, headingPrereqs h⟩ :: rest)

/-- Model of extract_course_titles (catalog_util.py and duplicate
copies): fetch the courses page and process its course headings. -/
def extract_course_titles (env : Env) (coursesUrl : String) :
    Option (List RawCourse) :=
  match fetch_html env coursesUrl with
  | none => some []
  | some .empty => some []
  | some (.page p) => extractRecords p.headings

/-! ### Sidebar location and filtering

There are two implementations in the repository.  The one in
src/catalog_util.py (used with filter_urls_by_sidebar there) searches
only for a div with id sidebar and keeps only links whose visible text
contains the word school, case-insensitively.  The one in
src/create_course_dictionary.py and src/extract_schools.py tries an
ordered chain of selectors (div, nav, aside by id; div, nav by class;
div by role) and keeps all links of the first region found.
-/

/-- Selector: div with id sidebar. -/
def divIdSidebar (r : Region) : Bool := r.tag = "div" && r.idAttr = some "sidebar"

/-- Selector: nav with id sidebar. -/
def navIdSidebar (r : Region) : Bool := r.tag = "nav" && r.idAttr = some "sidebar"

/-- Selector: aside with id sidebar. -/
def asideIdSidebar (r : Region) : Bool := r.tag = "aside" && r.idAttr = some "sidebar"

/-- Selector: div carrying the class sidebar. -/
def divClassSidebar (r : Region) : Bool := r.tag = "div" && r.classes.contains "sidebar"

/-- Selector: nav carrying the class sidebar. -/
def navClassSidebar (r : Region) : Bool := r.tag = "nav" && r.classes.contains "sidebar"

/-- Selector: div with role navigation. -/
def divRoleNavigation (r : Region) : Bool :=
  r.tag = "div" && r.roleAttr = some "navigation"

/-- Sidebar chain of create_course_dictionary.get_sidebar_links: each
soup.find scans the whole document for the first matching element, and
the or-chain takes the first selector that matches anywhere. -/
def sidebarRegionChain (p : Page) : Option Region :=
  (p.regions.find? divIdSidebar) <|> (p.regions.find? navIdSidebar) <|>
  (p.regions.find? asideIdSidebar) <|> (p.regions.find? divClassSidebar) <|>
  (p.regions.find? navClassSidebar) <|> (p.regions.find? divRoleNavigation)

/-- Model of get_sidebar_links from src/catalog_util.py: only
div id sidebar is searched, and only anchors whose text contains the
word school case-insensitively are kept (the Python set is modelled as
a list used for membership only). -/
def get_sidebar_links_util (env : Env) (pageUrl : String) : List String :=
  match fetch_html env pageUrl with
  | none => []
  | some .empty => []
  | some (.page p) =>
    match p.regions.find? divIdSidebar with
    | none => []
    | some sidebar =>
      (sidebar.anchors.filter
        (fun a => containsSub (pyLower a.text.toList) ("school".toList))).map
        (fun a => normalize_url (urljoin pageUrl a.href))

/-- Model of get_sidebar_links from src/create_course_dictionary.py
and src/extract_schools.py: the selector chain, keeping every anchor
of the chosen region. -/
def get_sidebar_links_ccd (env : Env) (pageUrl : String) : List String :=
  match fetch_html env pageUrl with
  | none => []
  | some .empty => []
  | some (.page p) =>
    match sidebarRegionChain p with
    | none => []
    | some sidebar =>
      sidebar.anchors.map (fun a => normalize_url (urljoin pageUrl a.href))

/-- Model of filter_urls_by_sidebar from src/catalog_util.py. -/
def filter_urls_by_sidebar_util (env : Env) (pageUrl : String)
    (urls : List String) : List String :=
  let links := get_sidebar_links_util env pageUrl
  urls.filter (fun u => links.contains (normalize_url u))

/-- Model of filter_urls_by_sidebar from
src/create_course_dictionary.py and src/extract_schools.py. -/
def filter_urls_by_sidebar_ccd (env : Env) (pageUrl : String)
    (urls : List String) : List String :=
  let links := get_sidebar_links_ccd env pageUrl
  urls.filter (fun u => links.contains (normalize_url u))

/-! ### get_catalog_summary_json.extract_school_name -/

/-- Model of extract_school_name: the first h1 text, else the title
trimmed at a vertical bar, else Unknown School. -/
def extract_school_name (env : Env) (schoolUrl : String) : String :=
  match fetch_html env schoolUrl with
  | none => "Unknown School"
  | some .empty => "Unknown School"
  | some (.page p) =>
    match p.h1Text with
    | some h1 => h1
    | none =>
      match p.titleText with
      | some t =>
        if t.toList.contains '|' then
          String.mk (pyStrip (t.toList.takeWhile (· ≠ '|')))
        else t
      | none => "Unknown School"

/-! ### Course dictionary build

The build loops of create_course_dictionary.py and extract_schools.py
insert one (course_id, course_title) pair per extraction into a Python
dict.  A Python dict keeps insertion order and overwrites the value in
place on an existing key.
-/

/-- Lookup in an association list with string keys
(first entry wins, matching Python dict semantics because keys are
kept unique by pyDictInsert). -/
def lookupA {α : Type} (k : String) (d : List (String × α)) : Option α :=
  (d.find? (fun kv => kv.1 = k)).map (fun kv => kv.2)

/-- Python dict assignment d[k] = v: overwrite in place when the key
is present, append otherwise. -/
def pyDictInsert {α : Type} (d : List (String × α)) (k : String) (v : α) :
    List (String × α) :=
  if (lookupA k d).isSome then
    d.map (fun kv => if kv.1 = k then (kv.1, v) else kv)
  else d ++ [(k, v)]

/-- Dictionary build loop: one assignment
course_dictionary[course_id] = course_title per extraction, in crawl
order. -/
def build_course_dictionary (stream : List (String × String)) :
    List (String × String) :=
  stream.foldl (fun d kv => pyDictInsert d kv.1 kv.2) []

/-! ### Aggregation of get_catalog_summary_json (json_output build)

The crawl loop of get_catalog_summary_json.py collects one extraction
record per course, carrying the school url, program name, program
requirements link, courses link and the raw course fields; the second
loop folds that stream into the nested summary.  The fold below
transcribes that second loop.
-/

/-- One record of the all_courses_data stream. -/
structure Extraction where
  school_url : String
  program_name : String
  prog_req_link : Option String
  courses_link : String
  course_id : String
  course_title : String
  prerequisites : Option String
deriving Repr, DecidableEq

/-- A resolved course reference (course_id with its dictionary
title). -/
structure CourseRef where
  course_id : String
  course_title : String
deriving Repr, DecidableEq

/-- A course entry of a program: id, title and resolved prerequisite
references. -/
structure CourseEntry where
  course_id : String
  course_title : String
  prerequisites : List CourseRef
deriving Repr, DecidableEq

/-- A program record of the summary. -/
structure ProgramRecord where
  program_name : String
  program_requirements_url : String
  courses_url : String
  requirement_courses : List CourseRef
  program_courses : List CourseEntry
deriving Repr, DecidableEq

/-- School accumulator with its programs keyed by name in insertion
order. -/
structure SchoolAcc where
  school_name : String
  school_url : String
  programs : List (String × ProgramRecord)
deriving Repr, DecidableEq

/-- School record of the final summary (programs as a plain list,
list(programs.values())). -/
structure SchoolRecord where
  school_name : String
  school_url : String
  programs : List ProgramRecord
deriving Repr, DecidableEq

/-- The aggregated summary. -/
structure CatalogSummary where
  catalog_url : String
  total_courses : Nat
  schools : List SchoolRecord
deriving Repr, DecidableEq

/-- Title lookup with the Unknown default,
course_dictionary.get(cid, "Unknown"). -/
def dictGet (courseDict : List (String × String)) (cid : String) : String :=
  match lookupA cid courseDict with
  | some t => t
  | none => "Unknown"

/-- Requirement-course list computed when a program is first seen:
empty when the requirements link is falsy or the literal Not found,
otherwise the resolved ids of the requirements page. -/
def requirementCoursesFor (env : Env) (courseDict : List (String × String))
    (e : Extraction) : List CourseRef :=
  match e.prog_req_link with
  | none => []
  | some l =>
    if l ≠ "" && l ≠ "Not found" then
      (extract_course_ids_from_program_requirements env l courseDict).map
        (fun cid => ⟨cid, dictGet courseDict cid⟩)
    else []

/-- Program record created on first sighting of a program name within
a school. -/
def mkProgram (env : Env) (courseDict : List (String × String))
    (e : Extraction) : ProgramRecord :=
  ⟨e.program_name,
   (match e.prog_req_link with
    | some l => if l ≠ "" then l else "Not available"
    | none => "Not available"),
   e.courses_link,
   requirementCoursesFor env courseDict e,
   []⟩

/-- Course entry appended for each extraction, with its prerequisite
string resolved through parse_prerequisite_courses. -/
def courseEntryFor (courseDict : List (String × String))
    (e : Extraction) : CourseEntry :=
  ⟨e.course_id, e.course_title,
   (parse_prerequisite_courses e.prerequisites courseDict).map
     (fun pid => ⟨pid, dictGet courseDict pid⟩)⟩

/-- Update the value at a key of an association list in place. -/
def updateA {α : Type} (k : String) (f : α → α) (d : List (String × α)) :
    List (String × α) :=
  d.map (fun kv => if kv.1 = k then (kv.1, f kv.2) else kv)

/-- First statement of the aggregation loop body: create the school on
first sighting of its url. -/
def stepSchool (env : Env) (acc : List (String × SchoolAcc)) (e : Extraction) :
    List (String × SchoolAcc) :=
  if (lookupA e.school_url acc).isSome then acc
  else
    acc ++ [(e.school_url,
      ⟨extract_school_name env e.school_url, e.school_url, []⟩)]

/-- Second statement of the loop body: create the program on first
sighting of its name within the school. -/
def stepProgram (env : Env) (courseDict : List (String × String))
    (acc : List (String × SchoolAcc)) (e : Extraction) :
    List (String × SchoolAcc) :=
  updateA e.school_url (fun sch =>
    if (lookupA e.program_name sch.programs).isSome then sch
    else { sch with programs :=
      sch.programs ++ [(e.program_name, mkProgram env courseDict e)] }) acc

/-- Third statement of the loop body: append the course entry to the
program. -/
def stepCourse (courseDict : List (String × String))
    (acc : List (String × SchoolAcc)) (e : Extraction) :
    List (String × SchoolAcc) :=
  updateA e.school_url (fun sch =>
    { sch with programs :=
        (updateA e.program_name (fun pr =>
          { pr with program_courses :=
              pr.program_courses ++ [courseEntryFor courseDict e] })
          sch.programs) }) acc

/-- One step of the aggregation loop: the three statements in
sequence. -/
def stepExtraction (env : Env) (courseDict : List (String × String))
    (acc : List (String × SchoolAcc)) (e : Extraction) :
    List (String × SchoolAcc) :=
  stepCourse courseDict (stepProgram env courseDict (stepSchool env acc e) e) e

/-- Conversion of a school accumulator to the output record,
list(school_data programs values). -/
def toSchoolRecord (s : SchoolAcc) : SchoolRecord :=
  ⟨s.school_name, s.school_url, s.programs.map (fun kv => kv.2)⟩

/-- Model of the json_output structure built by
get_catalog_summary_json.py: total_courses is the length of the
all_courses_data stream, and schools is the folded nested structure. -/
def json_output (env : Env) (courseDict : List (String × String))
    (catalogUrl : String) (stream : List Extraction) : CatalogSummary :=
  ⟨catalogUrl, stream.length,
   (stream.foldl (stepExtraction env courseDict) []).map
     (fun kv => toSchoolRecord kv.2)⟩

end GraphCatalog

namespace GraphCatalog

/-! ## Theorems for the claims -/

/-! ### Association list lemmas for the dictionary build -/

theorem lookupA_map_overwrite {α : Type} (d : List (String × α)) (k : String) (v : α) :
    lookupA k (d.map (fun kv => if kv.1 = k then (kv.1, v) else kv)) =
      if (lookupA k d).isSome then some v else none := by
  induction d with
  | nil => simp [lookupA]
  | cons kv t ih =>
    by_cases hk : kv.1 = k
    · simp only [List.map_cons, if_pos hk]
      unfold lookupA
      rw [List.find?_cons_of_pos _ (by simp [hk]),
        List.find?_cons_of_pos _ (by simp [hk])]
      simp
    · simp only [List.map_cons, if_neg hk]
      unfold lookupA
      rw [List.find?_cons_of_neg _ (by simp [hk]),
        List.find?_cons_of_neg _ (by simp [hk])]
      exact ih

theorem lookupA_append_single {α : Type} (d : List (String × α)) (k : String) (v : α)
    (h : lookupA k d = none) : lookupA k (d ++ [(k, v)]) = some v := by
  induction d with
  | nil =>
    unfold lookupA
    rw [List.nil_append, List.find?_cons_of_pos _ (by simp)]
    simp
  | cons kv t ih =>
    unfold lookupA at h ⊢
    by_cases hk : kv.1 = k
    · rw [List.find?_cons_of_pos _ (by simp [hk])] at h
      simp at h
    · rw [List.find?_cons_of_neg _ (by simp [hk])] at h
      rw [List.cons_append, List.find?_cons_of_neg _ (by simp [hk])]
      exact ih h

theorem lookupA_append_single_ne {α : Type} (d : List (String × α)) (k k' : String)
    (v : α) (h : k' ≠ k) : lookupA k' (d ++ [(k, v)]) = lookupA k' d := by
  induction d with
  | nil =>
    unfold lookupA
    rw [List.nil_append,
      List.find?_cons_of_neg _ (by simpa using Ne.symm h)]
  | cons kv t ih =>
    unfold lookupA at ih ⊢
    by_cases hk : kv.1 = k'
    · rw [List.cons_append, List.find?_cons_of_pos _ (by simp [hk]),
        List.find?_cons_of_pos _ (by simp [hk])]
    · rw [List.cons_append, List.find?_cons_of_neg _ (by simp [hk]),
        List.find?_cons_of_neg _ (by simp [hk])]
      exact ih

theorem lookupA_insert_self {α : Type} (d : List (String × α)) (k : String) (v : α) :
    lookupA k (pyDictInsert d k v) = some v := by
  unfold pyDictInsert
  by_cases h : (lookupA k d).isSome
  · rw [if_pos h, lookupA_map_overwrite, if_pos h]
  · rw [if_neg h]
    exact lookupA_append_single d k v (by
      cases hd : lookupA k d
      · rfl
      · rw [hd] at h; simp at h)

theorem lookupA_map_overwrite_ne {α : Type} (d : List (String × α)) (k k' : String)
    (v : α) (h : k' ≠ k) :
    lookupA k' (d.map (fun kv => if kv.1 = k then (kv.1, v) else kv)) =
      lookupA k' d := by
  induction d with
  | nil => simp [lookupA]
  | cons kv t ih =>
    by_cases hk : kv.1 = k
    · have hne : ¬kv.1 = k' := by rw [hk]; exact fun hc => h hc.symm
      simp only [List.map_cons, if_pos hk]
      unfold lookupA
      rw [List.find?_cons_of_neg _ (by simp [hne]),
        List.find?_cons_of_neg _ (by simp [hne])]
      exact ih
    · simp only [List.map_cons, if_neg hk]
      unfold lookupA
      by_cases hk' : kv.1 = k'
      · rw [List.find?_cons_of_pos _ (by simp [hk']),
          List.find?_cons_of_pos _ (by simp [hk'])]
      · rw [List.find?_cons_of_neg _ (by simp [hk']),
          List.find?_cons_of_neg _ (by simp [hk'])]
        exact ih

theorem lookupA_insert_ne {α : Type} (d : List (String × α)) (k k' : String) (v : α)
    (h : k' ≠ k) : lookupA k' (pyDictInsert d k v) = lookupA k' d := by
  unfold pyDictInsert
  by_cases hp : (lookupA k d).isSome
  · rw [if_pos hp, lookupA_map_overwrite_ne d k k' v h]
  · rw [if_neg hp, lookupA_append_single_ne d k k' v h]

theorem build_course_dictionary_aux (stream : List (String × String)) :
    ∀ (d : List (String × String)) (id : String),
      lookupA id (stream.foldl (fun d kv => pyDictInsert d kv.1 kv.2) d) =
        (((stream.filter (fun kv => kv.1 = id)).getLast?).map (fun kv => kv.2)
          <|> lookupA id d) := by
  induction stream with
  | nil => intro d id; simp
  | cons kv rest ih =>
    intro d id
    simp only [List.foldl_cons]
    rw [ih]
    by_cases hk : kv.1 = id
    · have hfil : (kv :: rest).filter (fun kv => decide (kv.1 = id)) =
          kv :: rest.filter (fun kv => decide (kv.1 = id)) := by
        simp [List.filter_cons, hk]
      rw [hfil, List.getLast?_cons]
      cases hfl : (rest.filter (fun kv => decide (kv.1 = id))).getLast? with
      | some x => simp [hfl]
      | none =>
        subst hk
        simp only [hfl, Option.map_none, Option.none_orElse, Option.getD_none]
        rw [lookupA_insert_self]
        simp
    · have hfil : (kv :: rest).filter (fun kv => decide (kv.1 = id)) =
          rest.filter (fun kv => decide (kv.1 = id)) := by
        simp [List.filter_cons, hk]
      rw [hfil, lookupA_insert_ne d kv.1 id kv.2 (fun hc => hk hc.symm)]

theorem collectReqIds_mem {courseDict : List (String × String)} :
    ∀ {ms seen : List String} {c : String},
      c ∈ collectReqIds courseDict ms seen → ∃ t, (c, t) ∈ courseDict := by
  intro ms
  induction ms with
  | nil => intro seen c h; simp [collectReqIds] at h
  | cons m rest ih =>
    intro seen c h
    simp only [collectReqIds] at h
    match hf : courseDict.find?
        (fun kv =>
          normalizedDictId kv.1 = stripSpaceHyphen m && !seen.contains kv.1) with
    | some kv =>
      rw [hf] at h
      rcases List.mem_cons.mp h with hc | hc
      · exact ⟨kv.2, by rw [hc]; exact List.mem_of_find?_eq_some hf⟩
      · exact ih hc
    | none =>
      rw [hf] at h
      exact ih h

/-- C1.  Every course identifier returned by prerequisite resolution
and by requirement-course extraction is a key of the course
dictionary; tokens matching no key are dropped and contribute
nothing. -/
theorem c1_resolved_ids_in_dictionary :
    (∀ (prereq : Option String) (courseDict : List (String × String)) (c : String),
        c ∈ parse_prerequisite_courses prereq courseDict →
        ∃ t, (c, t) ∈ courseDict) ∧
    (∀ (env : Env) (url : String) (courseDict : List (String × String)) (c : String),
        c ∈ extract_course_ids_from_program_requirements env url courseDict →
        ∃ t, (c, t) ∈ courseDict) := by
  constructor
  · intro prereq courseDict c h
    match prereq with
    | none => simp [parse_prerequisite_courses] at h
    | some ps =>
      simp only [parse_prerequisite_courses] at h
      by_cases hps : ps = ""
      · rw [if_pos hps] at h; simp at h
      · rw [if_neg hps] at h
        rcases List.mem_filterMap.mp h with ⟨m, _, hm⟩
        rcases Option.map_eq_some'.mp hm with ⟨kv, hfind, hk⟩
        exact ⟨kv.2, by rw [← hk]; exact List.mem_of_find?_eq_some hfind⟩
  · intro env url courseDict c h
    unfold extract_course_ids_from_program_requirements at h
    rcases hfe : fetch_html env url with _ | doc
    · rw [hfe] at h; simp at h
    · rcases doc with _ | p
      · rw [hfe] at h; simp at h
      · rw [hfe] at h; exact collectReqIds_mem h

/-- Witness for C1 at a concrete input: resolving the CHEM example
produces CHEM-104L, which the theorem places in the dictionary. -/
theorem c1_witness :
    ∃ t, ("CHEM-104L", t) ∈ [("CHEM-104L", "General Chemistry")] :=
  c1_resolved_ids_in_dictionary.1
    (some "Prerequisite: CHEM 104L or permission")
    [("CHEM-104L", "General Chemistry")] "CHEM-104L" (by decide)

/-- C2 counterexample.  normalize_url is not idempotent: a space kept
at the end of the path survives the first normalization when a query
follows it (urlsplit preserves trailing space inside the url), and the
leading strip of the second application removes it. -/
theorem c2_counterexample :
    normalize_url (normalize_url "http://h/a.b ?q") ≠
      normalize_url "http://h/a.b ?q" := by decide

/-- C4 counterexample.  On the spec example the code does not fold the
path case: the claimed output with a lower-cased path differs from
what normalize_url returns. -/
theorem c4_counterexample :
    normalize_url "HTTP://Example.edu/A/B?x=1#frag" ≠ "http://example.edu/a/b/" := by
  decide

/-- C4 amended.  normalize_url lower-cases the scheme and the host,
drops query and fragment and appends a trailing slash because the last
segment has no dot, but preserves the case of the path: the example
input maps to http://example.edu/A/B/ . -/
theorem c4_amended_normalization :
    normalize_url "HTTP://Example.edu/A/B?x=1#frag" = "http://example.edu/A/B/" := by
  decide

/-- C5.  With the one-entry dictionary, resolving the example
prerequisite text returns exactly the canonical key CHEM-104L. -/
theorem c5_chem_resolution :
    parse_prerequisite_courses (some "Prerequisite: CHEM 104L or permission")
      [("CHEM-104L", "General Chemistry")] = ["CHEM-104L"] := by decide

/-- C6.  total_courses is the length of the collected extraction
stream for every input, and on a concrete stream with a duplicated
course identifier it differs from the size of the deduplicated course
dictionary built from the same stream. -/
theorem c6_total_courses :
    (∀ (env : Env) (courseDict : List (String × String)) (catalogUrl : String)
        (stream : List Extraction),
        (json_output env courseDict catalogUrl stream).total_courses =
          stream.length) ∧
    ((json_output (fun _ => .exc) [("X", "T2")] "u"
        [⟨"s", "p", none, "c", "X", "T1", none⟩,
         ⟨"s", "p", none, "c", "X", "T2", none⟩]).total_courses = 2 ∧
      (build_course_dictionary [("X", "T1"), ("X", "T2")]).length = 1) := by
  exact ⟨fun _ _ _ _ => rfl, rfl, by decide⟩

/-- C8 counterexample.  A response with status 304 is not a 2xx
status, yet fetch_html returns its body rather than an absent result:
raise_for_status raises only for 4xx and 5xx. -/
theorem c8_counterexample :
    fetch_html (fun _ => .response 304 (.page ⟨[], [], none, none, "cached"⟩))
        "http://x" = some (.page ⟨[], [], none, none, "cached"⟩) ∧
      ¬(200 ≤ 304 ∧ 304 ≤ 299) := by
  exact ⟨rfl, by omega⟩

/-- C8 amended.  fetch_html is a total function of the fetch outcome
(no exception escapes): every raised requests exception yields none,
and a response yields none exactly when its status is in the 400-599
range raised by raise_for_status; any other response, 2xx or not,
yields its content. -/
theorem c8_amended_fetch (env : Env) (url : String) :
    (env url = .exc → fetch_html env url = none) ∧
    (∀ status doc, env url = .response status doc →
      fetch_html env url =
        if 400 ≤ status ∧ status ≤ 599 then none else some doc) := by
  constructor
  · intro h; unfold fetch_html; rw [h]
  · intro status doc h; unfold fetch_html; rw [h]

/-- Witness for C8 amended at concrete outcomes: an exception and a
404 yield none, a 200 yields the body. -/
theorem c8_witness :
    fetch_html (fun _ => .exc) "u" = none ∧
    fetch_html (fun _ => .response 404 .empty) "u" = none ∧
    fetch_html (fun _ => .response 200 .empty) "u" = some .empty := by
  refine ⟨(c8_amended_fetch (fun _ => .exc) "u").1 rfl, ?_, ?_⟩
  · have := (c8_amended_fetch (fun _ => .response 404 .empty) "u").2 404 .empty rfl
    rw [this]; decide
  · have := (c8_amended_fetch (fun _ => .response 200 .empty) "u").2 200 .empty rfl
    rw [this]; decide

theorem head?_dropWhile_not {p : Char → Bool} :
    ∀ {l : List Char} {c : Char}, ((l.dropWhile p).head? = some c) → p c = false := by
  intro l
  induction l with
  | nil => intro c h; simp at h
  | cons a t ih =>
    intro c h
    rw [List.dropWhile_cons] at h
    split at h
    · exact ih h
    · simp at h
      subst h
      simp_all

theorem pyStrip_head_not_ws {l : List Char} {c : Char}
    (h : (pyStrip l).head? = some c) : pyWhitespace c = false := by
  unfold pyStrip at h
  match hx : (((l.dropWhile pyWhitespace).reverse.dropWhile pyWhitespace).reverse) with
  | [] => rw [hx] at h; simp at h
  | a :: t =>
    rw [hx] at h
    simp at h
    subst h
    have hsplit : l.dropWhile pyWhitespace =
        (((l.dropWhile pyWhitespace).reverse.dropWhile pyWhitespace).reverse) ++
          (((l.dropWhile pyWhitespace).reverse.takeWhile pyWhitespace).reverse) := by
      conv_lhs => rw [← (l.dropWhile pyWhitespace).reverse_reverse,
        ← List.takeWhile_append_dropWhile (p := pyWhitespace)
          (l := (l.dropWhile pyWhitespace).reverse)]
      rw [List.reverse_append]
    rw [hx] at hsplit
    have hhead : (l.dropWhile pyWhitespace).head? = some a := by
      rw [hsplit]; rfl
    exact head?_dropWhile_not hhead

theorem pyStrip_ne_nil {l : List Char} {c : Char} (hh : l.head? = some c)
    (hc : pyWhitespace c = false) : pyStrip l ≠ [] := by
  cases l with
  | nil => simp at hh
  | cons a t =>
    simp at hh
    subst hh
    unfold pyStrip
    rw [List.dropWhile_cons, if_neg (by simp [hc])]
    intro hcon
    rw [List.reverse_eq_nil_iff, List.dropWhile_eq_nil_iff] at hcon
    have := hcon a (by simp)
    simp_all

theorem mkRecordParts_id_ne {cleaned : List Char} {c : Char}
    (hh : cleaned.head? = some c) (hc : pyWhitespace c = false) :
    (mkRecordParts cleaned).1 ≠ "" := by
  have hmk : ∀ x : List Char, x ≠ [] → String.mk x ≠ "" := by
    intro x hx hcon
    exact hx (congrArg String.data hcon)
  unfold mkRecordParts
  by_cases hsp : cleaned.contains ' '
  · rw [if_pos hsp]
    cases cleaned with
    | nil => simp at hh
    | cons a t =>
      simp at hh
      subst hh
      have hne : ¬(a = ' ') := by
        intro he; rw [he] at hc; simp [pyWhitespace] at hc
      rw [List.takeWhile_cons_of_pos (by simpa using hne)]
      exact hmk _ (pyStrip_ne_nil (l := a :: t.takeWhile (· ≠ ' ')) rfl hc)
  · rw [if_neg hsp]
    exact hmk _ (pyStrip_ne_nil hh hc)

theorem remove_parenthetical_shape {s : String} {cleaned : String}
    (h : remove_parenthetical s = some cleaned) :
    ∃ l, cleaned = String.mk (pyStrip (collapseWs l)) := by
  unfold remove_parenthetical at h
  rcases Option.map_eq_some'.mp h with ⟨l, _, hl⟩
  exact ⟨l, hl.symm⟩

theorem extractRecords_id_ne :
    ∀ (hs : List CourseHeading) (recs : List RawCourse) (r : RawCourse),
      extractRecords hs = some recs → r ∈ recs → r.course_id ≠ "" := by
  intro hs
  induction hs with
  | nil =>
    intro recs r h hr
    simp only [extractRecords, Option.some.injEq] at h
    subst h
    simp at hr
  | cons hd t ih =>
    intro recs r h hr
    simp only [extractRecords] at h
    split at h
    · exact ih recs r h hr
    · split at h
      · simp at h
      · rename_i cleaned hcl
        split at h
        · exact ih recs r h hr
        · rename_i hce
          split at h
          · simp at h
          · rename_i rest hrest
            simp only [Option.some.injEq] at h
            rw [← h] at hr
            rcases List.mem_cons.mp hr with hrr | hrr
            · rw [hrr]
              rcases remove_parenthetical_shape hcl with ⟨l, hl⟩
              have hne : cleaned.toList ≠ [] := by
                intro hcon
                exact hce (congrArg String.mk hcon)
              cases hx : cleaned.toList with
              | nil => exact absurd hx hne
              | cons c t2 =>
                have hws : pyWhitespace c = false := by
                  apply pyStrip_head_not_ws (l := collapseWs l)
                  have heq : cleaned.toList = pyStrip (collapseWs l) := by
                    rw [hl]; rfl
                  rw [← heq, hx]
                  rfl
                exact @mkRecordParts_id_ne (c :: t2) c rfl hws
            · exact ih rest r hrest hrr

/-- C10.  A heading whose visible text is non-empty but whose cleaned
title is empty after parenthetical removal and whitespace collapsing
contributes no record: removing such a heading from the page leaves
the extraction output unchanged, and every emitted record has a
non-empty course_id. -/
theorem c10_empty_cleaned_skipped :
    (∀ (pre post : List CourseHeading) (h : CourseHeading),
        h.text ≠ "" → remove_parenthetical h.text = some "" →
        extractRecords (pre ++ h :: post) = extractRecords (pre ++ post)) ∧
    (∀ (hs : List CourseHeading) (recs : List RawCourse) (r : RawCourse),
        extractRecords hs = some recs → r ∈ recs → r.course_id ≠ "") := by
  constructor
  · intro pre post h hne hcl
    induction pre with
    | nil =>
      simp only [List.nil_append, extractRecords]
      rw [if_neg hne, hcl]
      simp
    | cons h0 t ih =>
      simp only [List.cons_append, extractRecords, List.append_eq]
      rw [ih]
  · exact extractRecords_id_ne

/-- Witness for C10 at a concrete page: a heading reading only a
parenthetical is skipped, leaving the remaining heading's record. -/
theorem c10_witness :
    extractRecords [⟨"(Lab)", some none⟩, ⟨"ABC 101 (4 cr.)", none⟩] =
      extractRecords [⟨"ABC 101 (4 cr.)", none⟩] :=
  c10_empty_cleaned_skipped.1 [] [⟨"ABC 101 (4 cr.)", none⟩] ⟨"(Lab)", some none⟩
    (by decide) (by decide)

/-- C9.  During course-dictionary construction, when two extractions
carry the same course_id the later title overwrites the earlier one:
the finished dictionary maps each identifier to the title of its last
occurrence in crawl order, and an identifier absent from the stream is
absent from the dictionary. -/
theorem c9_last_write_wins (stream : List (String × String)) (id : String) :
    lookupA id (build_course_dictionary stream) =
      ((stream.filter (fun kv => kv.1 = id)).getLast?).map (fun kv => kv.2) := by
  unfold build_course_dictionary
  rw [build_course_dictionary_aux stream [] id]
  cases h : (stream.filter (fun kv => kv.1 = id)).getLast? <;>
    simp [lookupA]

/-! ### Lemmas for the aggregation fold (C7) -/

theorem lookupA_updateA_self {α : Type} (k : String) (f : α → α)
    (d : List (String × α)) :
    lookupA k (updateA k f d) = (lookupA k d).map f := by
  induction d with
  | nil => simp [lookupA, updateA]
  | cons kv t ih =>
    by_cases hk : kv.1 = k
    · simp only [updateA, List.map_cons, if_pos hk]
      unfold lookupA
      rw [List.find?_cons_of_pos _ (by simp [hk]),
        List.find?_cons_of_pos _ (by simp [hk])]
      simp
    · simp only [updateA, List.map_cons, if_neg hk]
      unfold lookupA
      rw [List.find?_cons_of_neg _ (by simp [hk]),
        List.find?_cons_of_neg _ (by simp [hk])]
      exact ih

theorem lookupA_updateA_ne {α : Type} (k k' : String) (f : α → α)
    (d : List (String × α)) (h : k' ≠ k) :
    lookupA k' (updateA k f d) = lookupA k' d := by
  induction d with
  | nil => simp [lookupA, updateA]
  | cons kv t ih =>
    by_cases hk : kv.1 = k
    · have hne : ¬kv.1 = k' := by rw [hk]; exact fun hc => h hc.symm
      simp only [updateA, List.map_cons, if_pos hk]
      unfold lookupA
      rw [List.find?_cons_of_neg _ (by simp [hne]),
        List.find?_cons_of_neg _ (by simp [hne])]
      exact ih
    · simp only [updateA, List.map_cons, if_neg hk]
      by_cases hk' : kv.1 = k'
      · unfold lookupA
        rw [List.find?_cons_of_pos _ (by simp [hk']),
          List.find?_cons_of_pos _ (by simp [hk'])]
      · unfold lookupA
        rw [List.find?_cons_of_neg _ (by simp [hk']),
          List.find?_cons_of_neg _ (by simp [hk'])]
        exact ih

theorem lookupA_mem {α : Type} {k : String} {v : α} {d : List (String × α)}
    (h : lookupA k d = some v) : (k, v) ∈ d := by
  unfold lookupA at h
  rcases Option.map_eq_some'.mp h with ⟨kv, hfind, hv⟩
  have hmem := List.mem_of_find?_eq_some hfind
  have hkey := List.find?_some hfind
  simp at hkey
  rw [← hkey, ← hv]
  exact hmem

/-- Program lookup inside the school accumulator. -/
def lookupProg (acc : List (String × SchoolAcc)) (s p : String) :
    Option ProgramRecord :=
  (lookupA s acc).bind (fun sch => lookupA p sch.programs)

/-- The program record written by one aggregation step at the keys of
the processed extraction: the existing record, or a fresh mkProgram,
with the course entry appended. -/
def stepProgAt (env : Env) (dict : List (String × String))
    (acc : List (String × SchoolAcc)) (e : Extraction) : ProgramRecord :=
  let base := (lookupProg acc e.school_url e.program_name).getD
    (mkProgram env dict e)
  { base with program_courses :=
      base.program_courses ++ [courseEntryFor dict e] }

/-- Lookup at the school key after the school-creation stage: the
existing school or the fresh empty one. -/
theorem lookupA_stepSchool_self (env : Env) (acc : List (String × SchoolAcc))
    (e : Extraction) :
    lookupA e.school_url (stepSchool env acc e) =
      some ((lookupA e.school_url acc).getD
        ⟨extract_school_name env e.school_url, e.school_url, []⟩) := by
  unfold stepSchool
  cases hsc : lookupA e.school_url acc with
  | some sch => rw [if_pos (by rfl), hsc]; rfl
  | none =>
    rw [if_neg (by simp), lookupA_append_single acc e.school_url _ hsc]
    rfl

theorem lookupA_stepSchool_ne (env : Env) (acc : List (String × SchoolAcc))
    (e : Extraction) (s : String) (hs : s ≠ e.school_url) :
    lookupA s (stepSchool env acc e) = lookupA s acc := by
  unfold stepSchool
  cases hsc : lookupA e.school_url acc with
  | some sch => rw [if_pos (by rfl)]
  | none =>
    rw [if_neg (by simp),
      lookupA_append_single_ne acc e.school_url s _ hs]

/-- Characterisation of one aggregation step through lookupProg: the
step rewrites exactly the program at the extraction keys and leaves
every other program association unchanged. -/
theorem lookupProg_step (env : Env) (dict : List (String × String))
    (acc : List (String × SchoolAcc)) (e : Extraction) (s p : String) :
    lookupProg (stepExtraction env dict acc e) s p =
      if s = e.school_url ∧ p = e.program_name then
        some (stepProgAt env dict acc e)
      else lookupProg acc s p := by
  by_cases hs : s = e.school_url
  · by_cases hp : p = e.program_name
    · rw [if_pos ⟨hs, hp⟩]
      subst hs
      subst hp
      unfold stepExtraction lookupProg stepCourse stepProgram
      rw [lookupA_updateA_self, lookupA_updateA_self, lookupA_stepSchool_self]
      simp only [Option.map_some', Option.some_bind]
      cases hsc : lookupA e.school_url acc with
      | some sch =>
        simp only [hsc, Option.getD_some]
        cases hpr : lookupA e.program_name sch.programs with
        | some pr0 =>
          rw [if_pos (show (some pr0).isSome = true from rfl)]
          rw [lookupA_updateA_self, hpr]
          unfold stepProgAt lookupProg
          rw [hsc]
          simp only [Option.some_bind, hpr, Option.getD_some, Option.map_some']
        | none =>
          rw [if_neg (show ¬(none : Option ProgramRecord).isSome = true
            from by simp)]
          rw [lookupA_updateA_self]
          unfold stepProgAt lookupProg
          rw [hsc]
          simp only [Option.some_bind, hpr, Option.getD_none, Option.map_some',
            lookupA_append_single sch.programs e.program_name
              (mkProgram env dict e) hpr]
      | none =>
        simp only [hsc, Option.getD_none]
        rw [lookupA_updateA_self]
        unfold stepProgAt lookupProg
        rw [hsc]
        simp only [Option.none_bind, Option.getD_none, Option.map_some',
          lookupA, List.find?, List.nil_append]
        simp
    · rw [if_neg (fun hc => hp hc.2)]
      subst hs
      unfold stepExtraction lookupProg stepCourse stepProgram
      rw [lookupA_updateA_self, lookupA_updateA_self, lookupA_stepSchool_self]
      simp only [Option.map_some', Option.some_bind]
      rw [lookupA_updateA_ne _ _ _ _ hp]
      cases hsc : lookupA e.school_url acc with
      | some sch =>
        simp only [hsc, Option.getD_some]
        cases hpr : lookupA e.program_name sch.programs with
        | some pr0 =>
          rw [if_pos (show (some pr0).isSome = true from rfl)]
          simp only [Option.some_bind]
        | none =>
          rw [if_neg (show ¬(none : Option ProgramRecord).isSome = true
            from by simp)]
          simp only [Option.some_bind,
            lookupA_append_single_ne sch.programs e.program_name p
              (mkProgram env dict e) hp]
      | none =>
        simp only [hsc, Option.getD_none]
        rw [if_neg (show ¬(lookupA e.program_name
            ([] : List (String × ProgramRecord))).isSome = true
          from by simp [lookupA])]
        simp only [Option.none_bind, List.nil_append,
          lookupA_append_single_ne ([] : List (String × ProgramRecord))
            e.program_name p (mkProgram env dict e) hp]
        simp [lookupA]
        exact fun hc => hp hc.symm
  · rw [if_neg (fun hc => hs hc.1)]
    unfold stepExtraction lookupProg stepCourse stepProgram
    rw [lookupA_updateA_ne _ _ _ _ hs, lookupA_updateA_ne _ _ _ _ hs,
      lookupA_stepSchool_ne env acc e s hs]

/-- Program invariant carried through the fold: the program at the
given keys exists, its stored name is the key, and its
requirement-course list has the given value. -/
def progNameReq (acc : List (String × SchoolAcc)) (s p : String)
    (rc : List CourseRef) : Prop :=
  ∃ pr, lookupProg acc s p = some pr ∧ pr.program_name = p ∧
    pr.requirement_courses = rc

theorem progNameReq_step (env : Env) (dict : List (String × String))
    (acc : List (String × SchoolAcc)) (e : Extraction) (s p : String)
    (rc : List CourseRef) (h : progNameReq acc s p rc) :
    progNameReq (stepExtraction env dict acc e) s p rc := by
  obtain ⟨pr, hl, hn, hr⟩ := h
  unfold progNameReq
  rw [lookupProg_step]
  by_cases hk : s = e.school_url ∧ p = e.program_name
  · rw [if_pos hk]
    refine ⟨_, rfl, ?_, ?_⟩ <;>
    · unfold stepProgAt
      rw [← hk.1, ← hk.2, hl]
      simpa using by first | exact hn | exact hr
  · rw [if_neg hk]
    exact ⟨pr, hl, hn, hr⟩

theorem progNameReq_create (env : Env) (dict : List (String × String))
    (acc : List (String × SchoolAcc)) (e : Extraction)
    (hnone : lookupProg acc e.school_url e.program_name = none) :
    progNameReq (stepExtraction env dict acc e) e.school_url e.program_name
      (requirementCoursesFor env dict e) := by
  unfold progNameReq
  rw [lookupProg_step, if_pos ⟨rfl, rfl⟩]
  refine ⟨_, rfl, ?_, ?_⟩ <;>
  · unfold stepProgAt
    rw [hnone]
    rfl

theorem progNameReq_foldl (env : Env) (dict : List (String × String))
    (stream : List Extraction) :
    ∀ (acc : List (String × SchoolAcc)) (s p : String) (rc : List CourseRef),
      progNameReq acc s p rc →
      progNameReq (stream.foldl (stepExtraction env dict) acc) s p rc := by
  induction stream with
  | nil => intro acc s p rc h; exact h
  | cons e1 rest ih =>
    intro acc s p rc h
    exact ih _ _ _ _ (progNameReq_step env dict acc e1 s p rc h)

theorem lookupProg_step_none (env : Env) (dict : List (String × String))
    (acc : List (String × SchoolAcc)) (e : Extraction) (s p : String)
    (h : lookupProg acc s p = none)
    (hk : ¬(s = e.school_url ∧ p = e.program_name)) :
    lookupProg (stepExtraction env dict acc e) s p = none := by
  rw [lookupProg_step, if_neg hk]
  exact h

/-- Induction core for C7: a program sighted in the stream, all of
whose sightings carry an empty requirement-course computation, ends in
the accumulator with an empty requirement_courses list. -/
theorem c7_aux (env : Env) (dict : List (String × String)) :
    ∀ (stream : List Extraction) (acc : List (String × SchoolAcc))
      (e : Extraction), e ∈ stream →
      (∀ e' ∈ stream, e'.school_url = e.school_url →
        e'.program_name = e.program_name →
        requirementCoursesFor env dict e' = []) →
      (lookupProg acc e.school_url e.program_name = none ∨
        progNameReq acc e.school_url e.program_name []) →
      progNameReq (stream.foldl (stepExtraction env dict) acc)
        e.school_url e.program_name [] := by
  intro stream
  induction stream with
  | nil => intro acc e he _ _; simp at he
  | cons e1 rest ih =>
    intro acc e he hreq hd
    simp only [List.foldl_cons]
    rcases List.mem_cons.mp he with heq | he'
    · subst heq
      have hinv : progNameReq (stepExtraction env dict acc e)
          e.school_url e.program_name [] := by
        rcases hd with hnone | hinv
        · have hr1 : requirementCoursesFor env dict e = [] :=
            hreq e (List.mem_cons_self _ _) rfl rfl
          have := progNameReq_create env dict acc e hnone
          rw [hr1] at this
          exact this
        · exact progNameReq_step env dict acc e _ _ _ hinv
      exact progNameReq_foldl env dict rest _ _ _ _ hinv
    · refine ih (stepExtraction env dict acc e1) e he'
        (fun e' h' hs hp => hreq e' (List.mem_cons_of_mem _ h') hs hp) ?_
      rcases hd with hnone | hinv
      · by_cases hk : e.school_url = e1.school_url ∧
            e.program_name = e1.program_name
        · right
          have hr1 : requirementCoursesFor env dict e1 = [] :=
            hreq e1 (List.mem_cons_self _ _) hk.1.symm hk.2.symm
          have hc := progNameReq_create env dict acc e1
            (by rw [← hk.1, ← hk.2]; exact hnone)
          rw [hr1] at hc
          rw [← hk.1, ← hk.2] at hc
          exact hc
        · left
          exact lookupProg_step_none env dict acc e1 _ _ hnone hk
      · right
        exact progNameReq_step env dict acc e1 _ _ _ hinv

theorem lookupProg_step_isSome (env : Env) (dict : List (String × String))
    (acc : List (String × SchoolAcc)) (e : Extraction) (s p : String)
    (h : (lookupProg acc s p).isSome) :
    (lookupProg (stepExtraction env dict acc e) s p).isSome := by
  rw [lookupProg_step]
  by_cases hk : s = e.school_url ∧ p = e.program_name
  · rw [if_pos hk]; rfl
  · rw [if_neg hk]; exact h

theorem lookupProg_foldl_isSome (env : Env) (dict : List (String × String))
    (stream : List Extraction) :
    ∀ (acc : List (String × SchoolAcc)) (s p : String),
      (lookupProg acc s p).isSome →
      (lookupProg (stream.foldl (stepExtraction env dict) acc) s p).isSome := by
  induction stream with
  | nil => intro acc s p h; exact h
  | cons e1 rest ih =>
    intro acc s p h
    exact ih _ _ _ (lookupProg_step_isSome env dict acc e1 s p h)

theorem lookupProg_foldl_mem (env : Env) (dict : List (String × String)) :
    ∀ (stream : List Extraction) (acc : List (String × SchoolAcc))
      (e : Extraction), e ∈ stream →
      (lookupProg (stream.foldl (stepExtraction env dict) acc)
        e.school_url e.program_name).isSome := by
  intro stream
  induction stream with
  | nil => intro acc e he; simp at he
  | cons e1 rest ih =>
    intro acc e he
    simp only [List.foldl_cons]
    rcases List.mem_cons.mp he with heq | he'
    · subst heq
      apply lookupProg_foldl_isSome env dict rest
      rw [lookupProg_step, if_pos ⟨rfl, rfl⟩]
      rfl
    · exact ih _ e he'

/-- Well-formedness of the accumulator: every school is stored under
its own url and every program under its own name. -/
def accWf (acc : List (String × SchoolAcc)) : Prop :=
  ∀ kv ∈ acc, kv.2.school_url = kv.1 ∧
    ∀ pkv ∈ kv.2.programs, pkv.2.program_name = pkv.1

theorem accWf_step (env : Env) (dict : List (String × String))
    (acc : List (String × SchoolAcc)) (e : Extraction) (h : accWf acc) :
    accWf (stepExtraction env dict acc e) := by
  have hSchool : accWf (stepSchool env acc e) := by
    unfold stepSchool
    by_cases hx : (lookupA e.school_url acc).isSome
    · rw [if_pos hx]; exact h
    · rw [if_neg hx]
      intro kv hkv
      rcases List.mem_append.mp hkv with hold | hnew
      · exact h kv hold
      · simp at hnew
        rw [hnew]
        exact ⟨rfl, by intro pkv hpkv; simp at hpkv⟩
  have hProgram : accWf (stepProgram env dict (stepSchool env acc e) e) := by
    unfold stepProgram updateA
    intro kv hkv
    rcases List.mem_map.mp hkv with ⟨kv0, hkv0, heq⟩
    by_cases hk : kv0.1 = e.school_url
    · rw [← heq]
      simp only [if_pos hk]
      by_cases hpx : (lookupA e.program_name kv0.2.programs).isSome
      · simp only [if_pos hpx]
        exact hSchool kv0 hkv0
      · simp only [if_neg hpx]
        refine ⟨(hSchool kv0 hkv0).1, ?_⟩
        intro pkv hpkv
        rcases List.mem_append.mp hpkv with hpold | hpnew
        · exact (hSchool kv0 hkv0).2 pkv hpold
        · simp at hpnew
          rw [hpnew]
          rfl
    · rw [← heq]
      simp only [if_neg hk]
      exact hSchool kv0 hkv0
  unfold stepExtraction stepCourse updateA
  intro kv hkv
  rcases List.mem_map.mp hkv with ⟨kv0, hkv0, heq⟩
  by_cases hk : kv0.1 = e.school_url
  · rw [← heq]
    simp only [if_pos hk]
    refine ⟨(hProgram kv0 hkv0).1, ?_⟩
    intro pkv hpkv
    rcases List.mem_map.mp hpkv with ⟨pkv0, hpkv0, hpeq⟩
    by_cases hpk : pkv0.1 = e.program_name
    · rw [← hpeq]
      simp only [if_pos hpk]
      exact (hProgram kv0 hkv0).2 pkv0 hpkv0
    · rw [← hpeq]
      simp only [if_neg hpk]
      exact (hProgram kv0 hkv0).2 pkv0 hpkv0
  · rw [← heq]
    simp only [if_neg hk]
    exact hProgram kv0 hkv0

theorem accWf_foldl (env : Env) (dict : List (String × String))
    (stream : List Extraction) :
    ∀ acc, accWf acc → accWf (stream.foldl (stepExtraction env dict) acc) := by
  induction stream with
  | nil => intro acc h; exact h
  | cons e1 rest ih =>
    intro acc h
    exact ih _ (accWf_step env dict acc e1 h)

/-- C7.  Every program sighted in the extraction stream appears in the
aggregate output under its school, with its stored program name; and
when every sighting of that program computes an empty
requirement-course list (in particular when requirement extraction
yields zero recognized tokens), the program still appears, with
requirement_courses equal to the empty list. -/
theorem c7_program_never_omitted (env : Env) (dict : List (String × String))
    (catalogUrl : String) (stream : List Extraction) (e : Extraction)
    (he : e ∈ stream) :
    ∃ school ∈ (json_output env dict catalogUrl stream).schools,
      school.school_url = e.school_url ∧
      ∃ pr ∈ school.programs,
        pr.program_name = e.program_name ∧
        ((∀ e' ∈ stream, e'.school_url = e.school_url →
            e'.program_name = e.program_name →
            requirementCoursesFor env dict e' = []) →
          pr.requirement_courses = []) := by
  have hsome := lookupProg_foldl_mem env dict stream [] e he
  obtain ⟨pr, hpr⟩ := Option.isSome_iff_exists.mp hsome
  set fold := stream.foldl (stepExtraction env dict) [] with hfold
  have hwf : accWf fold :=
    accWf_foldl env dict stream [] (by intro kv hkv; simp at hkv)
  unfold lookupProg at hpr
  cases hsc : lookupA e.school_url fold with
  | none => rw [hsc] at hpr; simp at hpr
  | some sch =>
    rw [hsc] at hpr
    simp only [Option.some_bind] at hpr
    have hschmem : (e.school_url, sch) ∈ fold := lookupA_mem hsc
    have hprmem : (e.program_name, pr) ∈ sch.programs := lookupA_mem hpr
    refine ⟨toSchoolRecord sch, ?_, ?_, pr, ?_, ?_, ?_⟩
    · show toSchoolRecord sch ∈ (json_output env dict catalogUrl stream).schools
      unfold json_output
      simp only
      exact List.mem_map.mpr ⟨(e.school_url, sch), hschmem, rfl⟩
    · exact (hwf _ hschmem).1
    · exact List.mem_map.mpr ⟨(e.program_name, pr), hprmem, rfl⟩
    · exact (hwf _ hschmem).2 _ hprmem
    · intro hreq
      have := c7_aux env dict stream [] e he hreq
        (Or.inl (by simp [lookupProg, lookupA]))
      obtain ⟨pr', hpr', _, hreq'⟩ := this
      unfold lookupProg at hpr'
      rw [hsc] at hpr'
      simp only [Option.some_bind] at hpr'
      rw [hpr] at hpr'
      cases hpr'
      exact hreq'

/-- Witness for C7 at a concrete one-extraction stream with an
errored network: the program appears with its name, and the
requirement list is empty under the hypothesis. -/
theorem c7_witness :
    ∃ school ∈ (json_output (fun _ => .exc) [] "u"
        [⟨"s", "p", none, "c", "X", "T", none⟩]).schools,
      school.school_url = "s" ∧
      ∃ pr ∈ school.programs,
        pr.program_name = "p" ∧
        ((∀ e' ∈ [(⟨"s", "p", none, "c", "X", "T", none⟩ : Extraction)],
            e'.school_url = "s" → e'.program_name = "p" →
            requirementCoursesFor (fun _ => .exc) [] e' = []) →
          pr.requirement_courses = []) :=
  c7_program_never_omitted (fun _ => .exc) [] "u"
    [⟨"s", "p", none, "c", "X", "T", none⟩]
    ⟨"s", "p", none, "c", "X", "T", none⟩ (by simp)

/-! ### C3: sidebar selector order -/

/-- Explicit prioritized selector list: try each selector over the
whole document in order and stop at the first that matches. -/
def findFirstBySelectors : List (Region → Bool) → Page → Option Region
  | [], _ => none
  | sel :: rest, p => (p.regions.find? sel) <|> findFirstBySelectors rest p

/-- Sidebar region located per the claim's wording: a prioritized,
ordered list of structural selectors tried by identifier first, then
by role, then by class, stopping at the first match.  Stated from the
claim, for comparison with the source definitions. -/
def claimSidebarRegion (p : Page) : Option Region :=
  findFirstBySelectors
    [divIdSidebar, navIdSidebar, asideIdSidebar,
     divRoleNavigation, divClassSidebar, navClassSidebar] p

/-- Sidebar-membership filter per the claim's wording: retain exactly
the candidates whose normalized form appears among the links found
inside the located region.  Stated from the claim, for comparison
with the source definitions. -/
def claimFilterUrlsBySidebar (env : Env) (pageUrl : String)
    (urls : List String) : List String :=
  let links :=
    match fetch_html env pageUrl with
    | none => []
    | some .empty => []
    | some (.page p) =>
      match claimSidebarRegion p with
      | none => []
      | some sidebar =>
        sidebar.anchors.map (fun (a : Anchor) => normalize_url (urljoin pageUrl a.href))
  urls.filter (fun u => links.contains (normalize_url u))

/-- Page with a class-selected sidebar before a role-selected one,
carrying different links. -/
def c3PageA : Page :=
  ⟨[⟨"div", none, ["sidebar"], none, [⟨"https://x.edu/2025/a/", "A"⟩]⟩,
    ⟨"div", none, [], some "navigation", [⟨"https://x.edu/2025/b/", "B"⟩]⟩],
   [], none, none, ""⟩

/-- Page whose div sidebar holds a link whose text does not contain
the word school. -/
def c3PageB : Page :=
  ⟨[⟨"div", some "sidebar", [], none, [⟨"https://x.edu/2025/b/", "Programs"⟩]⟩],
   [], none, none, ""⟩

/-- C3 counterexample.  The claim fails on both implementations: the
selector chain of create_course_dictionary tries the class selectors
before the role selector, so on a page carrying both, the code keeps
the candidate found in the class-selected region while the claimed
identifier-role-class order would drop it; and the catalog_util
implementation searches only div id sidebar and keeps only links whose
text contains the word school, dropping a candidate the claim would
retain. -/
theorem c3_counterexample :
    (filter_urls_by_sidebar_ccd (fun _ => .response 200 (.page c3PageA))
        "https://x.edu/2025/" ["https://x.edu/2025/a/"] =
        ["https://x.edu/2025/a/"] ∧
      claimFilterUrlsBySidebar (fun _ => .response 200 (.page c3PageA))
        "https://x.edu/2025/" ["https://x.edu/2025/a/"] = []) ∧
    (filter_urls_by_sidebar_util (fun _ => .response 200 (.page c3PageB))
        "https://x.edu/2025/" ["https://x.edu/2025/b/"] = [] ∧
      claimFilterUrlsBySidebar (fun _ => .response 200 (.page c3PageB))
        "https://x.edu/2025/" ["https://x.edu/2025/b/"] =
        ["https://x.edu/2025/b/"]) := by
  exact ⟨⟨by decide, by decide⟩, ⟨by decide, by decide⟩⟩

/-- C3 amended.  Both filters retain exactly the candidates whose
normalized form appears among the links of the located region, but the
create_course_dictionary chain tries the selectors in the order
identifier (div, nav, aside), then class (div, nav), then role (div),
stopping at the first match; and the catalog_util variant locates only
div id sidebar and keeps only sidebar links whose text contains the
word school case-insensitively. -/
theorem c3_amended_sidebar_filter :
    (∀ p : Page, sidebarRegionChain p =
      findFirstBySelectors
        [divIdSidebar, navIdSidebar, asideIdSidebar,
         divClassSidebar, navClassSidebar, divRoleNavigation] p) ∧
    (∀ (env : Env) (pageUrl : String) (urls : List String),
      filter_urls_by_sidebar_ccd env pageUrl urls =
        urls.filter (fun u =>
          (get_sidebar_links_ccd env pageUrl).contains (normalize_url u))) ∧
    (∀ (env : Env) (pageUrl : String) (urls : List String),
      filter_urls_by_sidebar_util env pageUrl urls =
        urls.filter (fun u =>
          (get_sidebar_links_util env pageUrl).contains (normalize_url u))) := by
  refine ⟨?_, fun _ _ _ => rfl, fun _ _ _ => rfl⟩
  intro p
  have horn : ∀ x : Option Region, (x <|> none) = x := by
    intro x; cases x <;> rfl
  unfold sidebarRegionChain
  simp only [findFirstBySelectors]
  rw [horn]

/-! ### Character-level lemmas about Char.toLower and the url character
classes, used for the idempotence analysis of normalize_url. -/

theorem char_toNat_ofNat {n : Nat} (h : n.isValidChar) : (Char.ofNat n).toNat = n := by
  unfold Char.ofNat
  rw [dif_pos h]
  rfl

theorem toLower_shift {c : Char} (h1 : 65 ≤ c.toNat) (h2 : c.toNat ≤ 90) :
    (Char.toLower c).toNat = c.toNat + 32 := by
  unfold Char.toLower
  rw [if_pos ⟨h1, h2⟩]
  exact char_toNat_ofNat (Or.inl (by omega))

theorem toLower_fix {c : Char} (h : ¬(65 ≤ c.toNat ∧ c.toNat ≤ 90)) :
    Char.toLower c = c := by
  unfold Char.toLower
  rw [if_neg h]

theorem char_eq_iff_toNat {c d : Char} : c = d ↔ c.toNat = d.toNat := by
  constructor
  · intro h; rw [h]
  · intro h
    apply Char.eq_of_val_eq
    apply UInt32.eq_of_toBitVec_eq
    apply BitVec.eq_of_toNat_eq
    exact h

theorem isUpper_iff {c : Char} : c.isUpper = true ↔ 65 ≤ c.toNat ∧ c.toNat ≤ 90 := by
  simp only [Char.isUpper, Bool.and_eq_true, decide_eq_true_eq, ge_iff_le,
    UInt32.le_def, BitVec.le_def]
  exact Iff.rfl

theorem isLower_iff {c : Char} : c.isLower = true ↔ 97 ≤ c.toNat ∧ c.toNat ≤ 122 := by
  simp only [Char.isLower, Bool.and_eq_true, decide_eq_true_eq, ge_iff_le,
    UInt32.le_def, BitVec.le_def]
  exact Iff.rfl

theorem isAlpha_iff {c : Char} : c.isAlpha = true ↔
    (65 ≤ c.toNat ∧ c.toNat ≤ 90) ∨ (97 ≤ c.toNat ∧ c.toNat ≤ 122) := by
  simp only [Char.isAlpha, Bool.or_eq_true, isUpper_iff, isLower_iff]

theorem isDigit_iff {c : Char} : c.isDigit = true ↔ 48 ≤ c.toNat ∧ c.toNat ≤ 57 := by
  simp only [Char.isDigit, Bool.and_eq_true, decide_eq_true_eq, ge_iff_le,
    UInt32.le_def, BitVec.le_def]
  exact Iff.rfl

theorem toLower_idem (c : Char) : Char.toLower (Char.toLower c) = Char.toLower c := by
  by_cases h : 65 ≤ c.toNat ∧ c.toNat ≤ 90
  · have hs := toLower_shift h.1 h.2
    exact toLower_fix (by omega)
  · rw [toLower_fix h, toLower_fix h]

theorem toLower_isAlpha {c : Char} (h : c.isAlpha = true) :
    (Char.toLower c).isAlpha = true := by
  rcases isAlpha_iff.mp h with h' | h'
  · have hs := toLower_shift h'.1 h'.2
    exact isAlpha_iff.mpr (Or.inr (by omega))
  · rw [toLower_fix (by omega)]
    exact h

theorem isAlpha_not_c0 {c : Char} (h : c.isAlpha = true) : c0OrSpace c = false := by
  have := isAlpha_iff.mp h
  simp only [c0OrSpace, decide_eq_false_iff_not]
  omega

theorem schemeChar_iff {c : Char} : schemeChar c = true ↔
    (65 ≤ c.toNat ∧ c.toNat ≤ 90) ∨ (97 ≤ c.toNat ∧ c.toNat ≤ 122) ∨
    (48 ≤ c.toNat ∧ c.toNat ≤ 57) ∨ c.toNat = 43 ∨ c.toNat = 45 ∨ c.toNat = 46 := by
  have ha : ('+' : Char).toNat = 43 := by decide
  have hb : ('-' : Char).toNat = 45 := by decide
  have hc : ('.' : Char).toNat = 46 := by decide
  simp only [schemeChar, Bool.or_eq_true, decide_eq_true_eq, isAlpha_iff, isDigit_iff,
    char_eq_iff_toNat, ha, hb, hc]
  tauto

theorem netlocDelim_iff {c : Char} : netlocDelim c = true ↔
    c.toNat = 47 ∨ c.toNat = 63 ∨ c.toNat = 35 := by
  have h1 : ('/' : Char).toNat = 47 := by decide
  have h2 : ('?' : Char).toNat = 63 := by decide
  have h3 : ('#' : Char).toNat = 35 := by decide
  simp only [netlocDelim, Bool.or_eq_true, decide_eq_true_eq, char_eq_iff_toNat,
    h1, h2, h3]
  tauto

theorem unsafeByte_iff {c : Char} : unsafeByte c = true ↔
    c.toNat = 9 ∨ c.toNat = 13 ∨ c.toNat = 10 := by
  have h1 : ('\t' : Char).toNat = 9 := by decide
  have h2 : ('\x0d' : Char).toNat = 13 := by decide
  have h3 : ('\n' : Char).toNat = 10 := by decide
  simp only [unsafeByte, Bool.or_eq_true, decide_eq_true_eq, char_eq_iff_toNat,
    h1, h2, h3]
  tauto

theorem c0OrSpace_iff {c : Char} : c0OrSpace c = true ↔ c.toNat ≤ 32 := by
  simp only [c0OrSpace, decide_eq_true_eq]

theorem schemeChar_toLower {c : Char} (h : schemeChar c = true) :
    schemeChar (Char.toLower c) = true := by
  rcases schemeChar_iff.mp h with h' | h' | h' | h' | h' | h'
  · have hs := toLower_shift h'.1 h'.2
    exact schemeChar_iff.mpr (Or.inr (Or.inl (by omega)))
  all_goals rw [toLower_fix (by omega)]; exact h

theorem netlocDelim_toLower (c : Char) :
    netlocDelim (Char.toLower c) = netlocDelim c := by
  by_cases h : 65 ≤ c.toNat ∧ c.toNat ≤ 90
  · have hs := toLower_shift h.1 h.2
    have h1 : netlocDelim (Char.toLower c) = false := by
      rw [← Bool.not_eq_true, netlocDelim_iff]; omega
    have h2 : netlocDelim c = false := by
      rw [← Bool.not_eq_true, netlocDelim_iff]; omega
    rw [h1, h2]
  · rw [toLower_fix h]

theorem unsafeByte_toLower (c : Char) :
    unsafeByte (Char.toLower c) = unsafeByte c := by
  by_cases h : 65 ≤ c.toNat ∧ c.toNat ≤ 90
  · have hs := toLower_shift h.1 h.2
    have h1 : unsafeByte (Char.toLower c) = false := by
      rw [← Bool.not_eq_true, unsafeByte_iff]; omega
    have h2 : unsafeByte c = false := by
      rw [← Bool.not_eq_true, unsafeByte_iff]; omega
    rw [h1, h2]
  · rw [toLower_fix h]

theorem schemeChar_ne_colon {c : Char} (h : schemeChar c = true) : c ≠ ':' := by
  intro he
  subst he
  rcases schemeChar_iff.mp h with h' | h' | h' | h' | h' | h' <;> simp_all

theorem pyLower_idem (l : List Char) : pyLower (pyLower l) = pyLower l := by
  induction l with
  | nil => rfl
  | cons a t ih =>
    simp only [pyLower, List.map_cons] at *
    rw [toLower_idem]
    exact congrArg _ (by simpa [pyLower] using ih)

theorem pyLower_ne_nil {l : List Char} (h : l ≠ []) : pyLower l ≠ [] := by
  cases l with
  | nil => simp at h
  | cons a t => simp [pyLower]

/-! ### List utilities for the urlsplit computations -/

theorem contains_true_iff {α : Type} [BEq α] [LawfulBEq α] {l : List α} {c : α} :
    l.contains c = true ↔ c ∈ l :=
  List.elem_iff

theorem contains_false_iff {α : Type} [BEq α] [LawfulBEq α] {l : List α} {c : α} :
    l.contains c = false ↔ ¬ c ∈ l := by
  constructor
  · intro h hm
    rw [contains_true_iff.mpr hm] at h
    cases h
  · intro h
    cases hc : l.contains c
    · rfl
    · exact absurd (contains_true_iff.mp hc) h

theorem takeWhile_append_all {q : Char → Bool} :
    ∀ {a : List Char}, a.all q = true → ∀ b, (a ++ b).takeWhile q = a ++ b.takeWhile q := by
  intro a
  induction a with
  | nil => intro _ b; rfl
  | cons x t ih =>
    intro h b
    simp only [List.all_cons, Bool.and_eq_true] at h
    simp only [List.cons_append, List.takeWhile_cons, h.1, if_true]
    rw [ih h.2 b]

theorem dropWhile_append_all {q : Char → Bool} :
    ∀ {a : List Char}, a.all q = true → ∀ b, (a ++ b).dropWhile q = b.dropWhile q := by
  intro a
  induction a with
  | nil => intro _ b; rfl
  | cons x t ih =>
    intro h b
    simp only [List.all_cons, Bool.and_eq_true] at h
    simp only [List.cons_append, List.dropWhile_cons, h.1, if_true]
    exact ih h.2 b

theorem takeWhile_append_stop {q : Char → Bool} {c : Char} (hc : q c = false) :
    ∀ (a t : List Char), (a ++ c :: t).takeWhile q = a.takeWhile q := by
  intro a
  induction a with
  | nil => intro t; simp [List.takeWhile_cons, hc]
  | cons x xs ih =>
    intro t
    simp only [List.cons_append, List.takeWhile_cons]
    cases hx : q x
    · simp
    · simp only [if_true]
      rw [ih t]

theorem dropWhile_append_stop {q : Char → Bool} {c : Char} (hc : q c = false) :
    ∀ (a t : List Char), (a ++ c :: t).dropWhile q = a.dropWhile q ++ c :: t := by
  intro a
  induction a with
  | nil => intro t; simp [List.dropWhile_cons, hc]
  | cons x xs ih =>
    intro t
    simp only [List.cons_append, List.dropWhile_cons]
    cases hx : q x
    · simp
    · simp only [if_true]
      exact ih t

theorem takeWhile_append_of_all_false {q : Char → Bool} :
    ∀ {a : List Char}, a.all q = false → ∀ t, (a ++ t).takeWhile q = a.takeWhile q := by
  intro a
  induction a with
  | nil => intro h; cases h
  | cons x xs ih =>
    intro h t
    simp only [List.all_cons] at h
    simp only [List.cons_append, List.takeWhile_cons]
    cases hx : q x
    · simp
    · simp only [if_true]
      rw [hx] at h
      simp only [Bool.true_and] at h
      rw [ih h t]

theorem head?_append_ne {a b : List Char} (h : a ≠ []) : (a ++ b).head? = a.head? := by
  cases a with
  | nil => exact absurd rfl h
  | cons x t => rfl

theorem rev_split (q : Char → Bool) (p : List Char) :
    (p.reverse.dropWhile q).reverse ++ (p.reverse.takeWhile q).reverse = p := by
  rw [← List.reverse_append, List.takeWhile_append_dropWhile, List.reverse_reverse]

theorem dropWhile_ne_nil_of_mem {q : Char → Bool} {c : Char} {l : List Char}
    (hm : c ∈ l) (hq : q c = false) : l.dropWhile q ≠ [] := by
  intro h
  rw [List.dropWhile_eq_nil_iff] at h
  have := h c hm
  rw [hq] at this
  cases this

theorem mem_of_mem_takeWhile {q : Char → Bool} {l : List Char} {c : Char}
    (h : c ∈ l.takeWhile q) : c ∈ l := by
  have hsplit := List.takeWhile_append_dropWhile (p := q) (l := l)
  rw [← hsplit]
  exact List.mem_append_left _ h

theorem mem_of_mem_dropWhile {q : Char → Bool} {l : List Char} {c : Char}
    (h : c ∈ l.dropWhile q) : c ∈ l := by
  have hsplit := List.takeWhile_append_dropWhile (p := q) (l := l)
  rw [← hsplit]
  exact List.mem_append_right _ h

theorem mem_of_mem_dropN {n : Nat} {l : List Char} {c : Char}
    (h : c ∈ l.drop n) : c ∈ l := by
  have hsplit := List.take_append_drop n l
  rw [← hsplit]
  exact List.mem_append_right _ h

theorem mem_of_mem_tail {l : List Char} {c : Char} (h : c ∈ l.tail) : c ∈ l := by
  cases l with
  | nil => cases h
  | cons x t => exact List.mem_cons_of_mem x h

/-! ### Behaviour of the scheme recogniser on reassembled urls -/

theorem fireScheme_cons_not_alpha {c : Char} (h : c.isAlpha = false) (hc : c ≠ ':')
    (t : List Char) : fireScheme (c :: t) = false := by
  simp only [fireScheme, List.takeWhile_cons]
  rw [if_pos (by simp [hc])]
  simp [h]

theorem fireScheme_no_colon {l : List Char} (h : l.contains ':' = false) :
    fireScheme l = false := by
  simp only [fireScheme]
  rw [h]
  simp

theorem fireScheme_slash (t : List Char) : fireScheme ('/' :: t) = false :=
  fireScheme_cons_not_alpha (by decide) (by decide) t

theorem all_ne_colon_of_schemeChars {s : List Char} (hall : s.all schemeChar = true) :
    s.all (· ≠ ':') = true := by
  rw [List.all_eq_true] at hall ⊢
  intro x hx
  have := schemeChar_ne_colon (hall x hx)
  simpa using this

theorem splitScheme_fire {s rest : List Char} (hne : s ≠ [])
    (hhead : ∀ c, s.head? = some c → c.isAlpha = true)
    (hall : s.all schemeChar = true) :
    fireScheme (s ++ ':' :: rest) = true ∧
      splitScheme (s ++ ':' :: rest) = (pyLower s, rest) := by
  have hcolon := all_ne_colon_of_schemeChars hall
  have htake : (s ++ ':' :: rest).takeWhile (· ≠ ':') = s := by
    rw [takeWhile_append_stop (by simp) s rest]
    rw [List.takeWhile_eq_self_iff]
    intro x hx
    have := List.all_eq_true.mp hcolon x hx
    simpa using this
  have hdrop : (s ++ ':' :: rest).dropWhile (· ≠ ':') = ':' :: rest := by
    rw [dropWhile_append_stop (by simp) s rest]
    have : s.dropWhile (· ≠ ':') = [] := by
      rw [List.dropWhile_eq_nil_iff]
      intro x hx
      exact List.all_eq_true.mp hcolon x hx
    rw [this]
    rfl
  have hcont : (s ++ ':' :: rest).contains ':' = true :=
    contains_true_iff.mpr (List.mem_append_right _ (List.mem_cons_self _ _))
  obtain ⟨c, cs, rfl⟩ : ∃ c cs, s = c :: cs := by
    cases s with
    | nil => exact absurd rfl hne
    | cons c cs => exact ⟨c, cs, rfl⟩
  have hfire : fireScheme ((c :: cs) ++ ':' :: rest) = true := by
    simp only [fireScheme, htake]
    rw [hcont]
    simp [hall, hhead c rfl]
  refine ⟨hfire, ?_⟩
  simp only [splitScheme, hfire, if_true, htake, hdrop]
  rfl

theorem splitScheme_no_fire {l : List Char} (h : fireScheme l = false) :
    splitScheme l = ([], l) := by
  simp [splitScheme, h]

theorem fireScheme_pre {a t : List Char} (h : fireScheme (a ++ t) = false) :
    fireScheme a = false ∧ fireScheme (a ++ ['/']) = false := by
  by_cases hm : ':' ∈ a
  · have hallf : a.all (· ≠ ':') = false := by
      cases hx : a.all (· ≠ ':')
      · rfl
      · have := List.all_eq_true.mp hx ':' hm
        simp at this
    have ht1 : (a ++ t).takeWhile (· ≠ ':') = a.takeWhile (· ≠ ':') :=
      takeWhile_append_of_all_false hallf t
    have ht2 : (a ++ ['/']).takeWhile (· ≠ ':') = a.takeWhile (· ≠ ':') :=
      takeWhile_append_of_all_false hallf ['/']
    have hc0 : a.contains ':' = true := contains_true_iff.mpr hm
    have hc1 : (a ++ t).contains ':' = true :=
      contains_true_iff.mpr (List.mem_append_left _ hm)
    have hc2 : (a ++ ['/']).contains ':' = true :=
      contains_true_iff.mpr (List.mem_append_left _ hm)
    simp only [fireScheme, ht1, hc1] at h
    constructor
    · simp only [fireScheme, hc0]
      exact h
    · simp only [fireScheme, ht2, hc2]
      exact h
  · have hc0 : a.contains ':' = false := contains_false_iff.mpr hm
    have hc2 : (a ++ ['/']).contains ':' = false := by
      rw [contains_false_iff]
      intro hmem
      rcases List.mem_append.mp hmem with hx | hx
      · exact hm hx
      · simp at hx
    exact ⟨fireScheme_no_colon hc0, fireScheme_no_colon hc2⟩

/-! ### Lemmas about lastSegment, splitparamsM and fixPath -/

theorem takeWhile_eq_nil_of_head {q : Char → Bool} {l : List Char}
    (h : ∀ c, l.head? = some c → q c = false) : l.takeWhile q = [] := by
  cases l with
  | nil => rfl
  | cons x t =>
    rw [List.takeWhile_cons, h x rfl]
    simp

theorem lastSegment_no_slash {p : List Char} (h : p.all (· ≠ '/') = true) :
    lastSegment p = p := by
  unfold lastSegment
  rw [List.takeWhile_eq_self_iff.mpr, List.reverse_reverse]
  intro x hx
  have := List.all_eq_true.mp h x (List.mem_reverse.mp hx)
  simpa using this

theorem lastSegment_concat_slash (x : List Char) : lastSegment (x ++ ['/']) = [] := by
  unfold lastSegment
  rw [List.reverse_append]
  simp only [List.reverse_cons, List.reverse_nil, List.nil_append, List.cons_append]
  rw [List.takeWhile_cons]
  simp

theorem lastSegment_cons_slash (p : List Char) : lastSegment ('/' :: p) = lastSegment p := by
  unfold lastSegment
  rw [List.reverse_cons, takeWhile_append_stop (by simp) p.reverse []]

theorem lastSegment_append_seg {pre t : List Char} (hp : pre.getLast? = some '/')
    (ht : t.all (· ≠ '/') = true) : lastSegment (pre ++ t) = t := by
  unfold lastSegment
  rw [List.reverse_append]
  have hall : t.reverse.all (· ≠ '/') = true := by
    rw [List.all_eq_true] at ht ⊢
    intro x hx
    exact ht x (List.mem_reverse.mp hx)
  rw [takeWhile_append_all hall]
  have hhead : ∀ c, pre.reverse.head? = some c → (decide (c ≠ '/')) = false := by
    intro c hcc
    rw [List.head?_reverse] at hcc
    rw [hp] at hcc
    injection hcc with hcc
    subst hcc
    simp
  rw [takeWhile_eq_nil_of_head hhead]
  rw [List.append_nil, List.reverse_reverse]

theorem splitparamsM_no_semi {p : List Char} (h : (lastSegment p).contains ';' = false) :
    splitparamsM p = (p, []) := by
  have h' : ((p.reverse.takeWhile (· ≠ '/')).reverse).contains ';' = false := h
  unfold splitparamsM
  by_cases hc : p.contains '/' = true
  · rw [if_pos hc, if_neg (by rw [h']; simp)]
  · rw [if_neg hc]
    have hall : p.all (· ≠ '/') = true := by
      rw [List.all_eq_true]
      intro x hx
      have hnc : ¬ '/' ∈ p := by
        intro hmm
        exact hc (contains_true_iff.mpr hmm)
      simp only [decide_eq_true_eq]
      intro hxe
      exact hnc (hxe ▸ hx)
    have hs : p.contains ';' = false := by
      have hls := lastSegment_no_slash hall
      rw [hls] at h
      exact h
    rw [if_neg (by rw [hs]; simp)]

theorem splitparamsM_fst_pre (p : List Char) : ∃ t, (splitparamsM p).1 ++ t = p := by
  unfold splitparamsM
  by_cases hc : p.contains '/' = true
  · rw [if_pos hc]
    by_cases hs : ((p.reverse.takeWhile (· ≠ '/')).reverse).contains ';' = true
    · rw [if_pos hs]
      refine ⟨((p.reverse.takeWhile (· ≠ '/')).reverse).dropWhile (· ≠ ';'), ?_⟩
      rw [List.append_assoc, List.takeWhile_append_dropWhile]
      exact rev_split _ p
    · rw [if_neg hs]
      exact ⟨[], List.append_nil p⟩
  · rw [if_neg hc]
    by_cases hs : p.contains ';' = true
    · rw [if_pos hs]
      refine ⟨p.dropWhile (· ≠ ';'), ?_⟩
      show p.takeWhile (· ≠ ';') ++ p.dropWhile (· ≠ ';') = p
      exact List.takeWhile_append_dropWhile _ _
    · rw [if_neg hs]
      exact ⟨[], List.append_nil p⟩

theorem fixPath_cases (p : List Char) : fixPath p = p ∨ fixPath p = p ++ ['/'] := by
  unfold fixPath
  by_cases h1 : p.getLast? = some '/'
  · rw [if_pos h1]
    exact Or.inl rfl
  · rw [if_neg h1]
    by_cases h2 : (lastSegment p).contains '.' = true
    · rw [if_pos h2]
      exact Or.inl rfl
    · rw [if_neg h2]
      exact Or.inr rfl

theorem fixPath_ne_nil {p : List Char} (h : p ≠ []) : fixPath p ≠ [] := by
  rcases fixPath_cases p with he | he <;> rw [he]
  · exact h
  · simp

theorem fixPath_idem (p : List Char) : fixPath (fixPath p) = fixPath p := by
  by_cases h1 : p.getLast? = some '/'
  · have he : fixPath p = p := by unfold fixPath; rw [if_pos h1]
    rw [he]
    exact he
  · by_cases h2 : (lastSegment p).contains '.' = true
    · have he : fixPath p = p := by unfold fixPath; rw [if_neg h1, if_pos h2]
      rw [he]
      exact he
    · have he : fixPath p = p ++ ['/'] := by unfold fixPath; rw [if_neg h1, if_neg h2]
      rw [he]
      unfold fixPath
      rw [if_pos (List.getLast?_concat p)]

theorem fixPath_eq_self_cases {p : List Char} (h : fixPath p = p) :
    p.getLast? = some '/' ∨ (lastSegment p).contains '.' = true := by
  by_cases h1 : p.getLast? = some '/'
  · exact Or.inl h1
  · by_cases h2 : (lastSegment p).contains '.' = true
    · exact Or.inr h2
    · exfalso
      unfold fixPath at h
      rw [if_neg h1, if_neg h2] at h
      have := congrArg List.length h
      simp at this

theorem fixPath_head {p : List Char} (h : p ≠ []) : (fixPath p).head? = p.head? := by
  rcases fixPath_cases p with he | he
  · rw [he]
  · rw [he, head?_append_ne h]

theorem fixPath_cons_slash {p : List Char} (hne : p ≠ []) (hfix : fixPath p = p) :
    fixPath ('/' :: p) = '/' :: p := by
  have hl : ('/' :: p).getLast? = p.getLast? := by
    cases p with
    | nil => exact absurd rfl hne
    | cons x xs => exact List.getLast?_cons_cons
  by_cases h1 : ('/' :: p).getLast? = some '/'
  · unfold fixPath
    rw [if_pos h1]
  · rcases fixPath_eq_self_cases hfix with hc | hc
    · exact absurd (by rw [hl]; exact hc) h1
    · unfold fixPath
      rw [if_neg h1, lastSegment_cons_slash, if_pos hc]

/-! ### The fragment and query clipping steps of urlsplit -/

theorem bool_eq_false_of_not {b : Bool} (h : ¬ b = true) : b = false := by
  cases b
  · rfl
  · exact absurd rfl h

theorem clip_fst_no_self (c : Char) (x : List Char) :
    ((if x.contains c then splitOnceChar c x else (x, [])).1).contains c = false := by
  by_cases h : x.contains c = true
  · rw [if_pos h]
    show (x.takeWhile (· ≠ c)).contains c = false
    rw [contains_false_iff]
    intro hm
    have := List.mem_takeWhile_imp hm
    simp at this
  · rw [if_neg h]
    exact bool_eq_false_of_not h

theorem clip_fst_pre (c : Char) (x : List Char) :
    ∃ t, ((if x.contains c then splitOnceChar c x else (x, [])).1) ++ t = x := by
  by_cases h : x.contains c = true
  · rw [if_pos h]
    refine ⟨x.dropWhile (· ≠ c), ?_⟩
    show x.takeWhile (· ≠ c) ++ x.dropWhile (· ≠ c) = x
    exact List.takeWhile_append_dropWhile _ _
  · rw [if_neg h]
    exact ⟨[], List.append_nil x⟩

theorem clip_fst_contains_false {d : Char} (c : Char) {x : List Char}
    (h : x.contains d = false) :
    ((if x.contains c then splitOnceChar c x else (x, [])).1).contains d = false := by
  obtain ⟨t, ht⟩ := clip_fst_pre c x
  rw [contains_false_iff] at h ⊢
  intro hm
  exact h (ht ▸ List.mem_append_left t hm)

theorem clip_fst_head (c : Char) (x : List Char) :
    (if x.contains c then splitOnceChar c x else (x, [])).1 = [] ∨
    (if x.contains c then splitOnceChar c x else (x, [])).1.head? = x.head? := by
  by_cases h : x.contains c = true
  · rw [if_pos h]
    show x.takeWhile (· ≠ c) = [] ∨ (x.takeWhile (· ≠ c)).head? = x.head?
    cases x with
    | nil => exact Or.inl rfl
    | cons y t =>
      rw [List.takeWhile_cons]
      cases hy : (decide (y ≠ c))
      · simp
      · simp
  · rw [if_neg h]
    exact Or.inr rfl

theorem clip_fst_head_self {c : Char} {x : List Char} (h : x.head? = some c) :
    (if x.contains c then splitOnceChar c x else (x, [])).1 = [] := by
  cases x with
  | nil => cases h
  | cons y t =>
    have hyc : y = c := by injection h
    rw [← hyc]
    rw [if_pos (contains_true_iff.mpr (List.mem_cons_self _ _))]
    show (y :: t).takeWhile (· ≠ y) = []
    rw [List.takeWhile_cons]
    simp

theorem clip_fst_all {q : Char → Bool} (c : Char) {x : List Char}
    (h : x.all q = true) :
    ((if x.contains c then splitOnceChar c x else (x, [])).1).all q = true := by
  obtain ⟨t, ht⟩ := clip_fst_pre c x
  rw [List.all_eq_true] at h ⊢
  intro y hy
  exact h y (ht ▸ List.mem_append_left t hy)

/-! ### The params split: its first component keeps no semicolon in the
last segment, is a prefix of the path, and preserves the head. -/

theorem splitparams_fst_no_semi (x : List Char) :
    (lastSegment (splitparamsM x).1).contains ';' = false := by
  unfold splitparamsM
  by_cases hc : x.contains '/' = true
  · rw [if_pos hc]
    by_cases hs : ((x.reverse.takeWhile (· ≠ '/')).reverse).contains ';' = true
    · rw [if_pos hs]
      have hmem : ('/' : Char) ∈ x.reverse := List.mem_reverse.mpr (contains_true_iff.mp hc)
      have hdnn : x.reverse.dropWhile (· ≠ '/') ≠ [] :=
        dropWhile_ne_nil_of_mem hmem (by simp)
      obtain ⟨c0, t0, he⟩ : ∃ c0 t0, x.reverse.dropWhile (· ≠ '/') = c0 :: t0 := by
        cases hx : x.reverse.dropWhile (· ≠ '/') with
        | nil => exact absurd hx hdnn
        | cons c0 t0 => exact ⟨c0, t0, rfl⟩
      have hc0 : c0 = '/' := by
        have := head?_dropWhile_not (p := (· ≠ '/')) (l := x.reverse) (c := c0)
          (by rw [he]; rfl)
        simpa using this
      have hlast : ((x.reverse.dropWhile (· ≠ '/')).reverse).getLast? = some '/' := by
        rw [List.getLast?_eq_head?_reverse, List.reverse_reverse, he, hc0]
        rfl
      have hallseg : (((x.reverse.takeWhile (· ≠ '/')).reverse).takeWhile (· ≠ ';')).all
          (· ≠ '/') = true := by
        rw [List.all_eq_true]
        intro y hy
        have hyseg : y ∈ (x.reverse.takeWhile (· ≠ '/')).reverse := mem_of_mem_takeWhile hy
        have hytw : y ∈ x.reverse.takeWhile (· ≠ '/') := List.mem_reverse.mp hyseg
        exact List.mem_takeWhile_imp (p := fun z => decide (z ≠ '/')) hytw
      show (lastSegment ((x.reverse.dropWhile (· ≠ '/')).reverse ++
        ((x.reverse.takeWhile (· ≠ '/')).reverse).takeWhile (· ≠ ';'))).contains ';' = false
      rw [lastSegment_append_seg hlast hallseg]
      rw [contains_false_iff]
      intro hm
      have := List.mem_takeWhile_imp hm
      simp at this
    · rw [if_neg hs]
      exact bool_eq_false_of_not hs
  · rw [if_neg hc]
    have hnoslash : ∀ z : List Char, (∀ y ∈ z, y ∈ x) → z.all (· ≠ '/') = true := by
      intro z hz
      rw [List.all_eq_true]
      intro y hy
      simp only [decide_eq_true_eq]
      intro hye
      subst hye
      exact (contains_false_iff.mp (bool_eq_false_of_not hc)) (hz _ hy)
    by_cases hs : x.contains ';' = true
    · rw [if_pos hs]
      show (lastSegment (x.takeWhile (· ≠ ';'))).contains ';' = false
      rw [lastSegment_no_slash (hnoslash _ (fun y hy => mem_of_mem_takeWhile hy))]
      rw [contains_false_iff]
      intro hm
      have := List.mem_takeWhile_imp hm
      simp at this
    · rw [if_neg hs]
      show (lastSegment x).contains ';' = false
      rw [lastSegment_no_slash (hnoslash _ (fun y hy => hy))]
      exact bool_eq_false_of_not hs

theorem splitparams_fst_head (y : List Char) :
    (splitparamsM y).1 = [] ∨ (splitparamsM y).1.head? = y.head? := by
  unfold splitparamsM
  by_cases hc : y.contains '/' = true
  · rw [if_pos hc]
    by_cases hs : ((y.reverse.takeWhile (· ≠ '/')).reverse).contains ';' = true
    · rw [if_pos hs]
      right
      have hmem : ('/' : Char) ∈ y.reverse := List.mem_reverse.mpr (contains_true_iff.mp hc)
      have hdnn : y.reverse.dropWhile (· ≠ '/') ≠ [] :=
        dropWhile_ne_nil_of_mem hmem (by simp)
      have hpre : (y.reverse.dropWhile (· ≠ '/')).reverse ≠ [] := by
        intro hx
        rw [List.reverse_eq_nil_iff] at hx
        exact hdnn hx
      show ((y.reverse.dropWhile (· ≠ '/')).reverse ++
        ((y.reverse.takeWhile (· ≠ '/')).reverse).takeWhile (· ≠ ';')).head? = y.head?
      rw [head?_append_ne hpre]
      conv_rhs => rw [← rev_split (· ≠ '/') y]
      rw [head?_append_ne hpre]
    · rw [if_neg hs]
      exact Or.inr rfl
  · rw [if_neg hc]
    by_cases hs : y.contains ';' = true
    · rw [if_pos hs]
      cases y with
      | nil => exact Or.inl rfl
      | cons c t =>
        show ((c :: t).takeWhile (· ≠ ';') = []) ∨ _
        rw [List.takeWhile_cons]
        cases hy : (decide (c ≠ ';'))
        · exact Or.inl (by simp)
        · simp
    · rw [if_neg hs]
      exact Or.inr rfl

theorem filter_head {q : Char → Bool} {l : List Char}
    (h : ∀ b, l.head? = some b → q b = true) : (l.filter q).head? = l.head? := by
  cases l with
  | nil => rfl
  | cons x t =>
    rw [List.filter_cons, if_pos (h x rfl)]
    rfl

/-! ### Small bridging lemmas for the normalization pipeline -/

theorem unsafe_imp_c0 {c : Char} (h : unsafeByte c = true) : c0OrSpace c = true := by
  rw [unsafeByte_iff] at h
  rw [c0OrSpace_iff]
  omega

theorem pyLower_nil_iff {x : List Char} : pyLower x = [] ↔ x = [] := by
  simp [pyLower]

theorem clean_pyLower {x : List Char} (h : ∀ c ∈ x, unsafeByte c = false) :
    ∀ c ∈ pyLower x, unsafeByte c = false := by
  intro c hc
  obtain ⟨b, hb, hbc⟩ := List.mem_map.mp hc
  rw [← hbc, unsafeByte_toLower]
  exact h b hb

theorem pre_contains_false {a b : List Char} {d : Char} (hpre : ∃ t, a ++ t = b)
    (h : b.contains d = false) : a.contains d = false := by
  obtain ⟨t, ht⟩ := hpre
  rw [contains_false_iff] at h ⊢
  intro hm
  exact h (ht ▸ List.mem_append_left t hm)

theorem pre_trans {a b c : List Char} (h1 : ∃ t, a ++ t = b) (h2 : ∃ t, b ++ t = c) :
    ∃ t, a ++ t = c := by
  obtain ⟨t1, ht1⟩ := h1
  obtain ⟨t2, ht2⟩ := h2
  exact ⟨t1 ++ t2, by rw [← List.append_assoc, ht1, ht2]⟩

theorem contains_concat_slash {a : List Char} {d : Char} (h : a.contains d = false)
    (hd : d ≠ '/') : (a ++ ['/']).contains d = false := by
  rw [contains_false_iff] at h ⊢
  intro hm
  rcases List.mem_append.mp hm with hx | hx
  · exact h hx
  · simp at hx
    exact hd hx

/-! ### The scheme-splitting stage of urlsplit -/

theorem splitScheme_spec (u2 : List Char) :
    ((splitScheme u2).1 = [] ∧ (splitScheme u2).2 = u2 ∧ fireScheme u2 = false) ∨
    ((splitScheme u2).1 ≠ [] ∧
     (∀ c, (splitScheme u2).1.head? = some c → c.isAlpha = true) ∧
     (splitScheme u2).1.all schemeChar = true ∧
     pyLower (splitScheme u2).1 = (splitScheme u2).1 ∧
     (∀ c ∈ (splitScheme u2).1, ∃ b ∈ u2, c = Char.toLower b) ∧
     (∀ c ∈ (splitScheme u2).2, c ∈ u2)) := by
  cases hf : fireScheme u2 with
  | false =>
    left
    rw [splitScheme_no_fire hf]
    exact ⟨rfl, rfl, rfl⟩
  | true =>
    right
    have hsp : splitScheme u2 = (pyLower (u2.takeWhile (· ≠ ':')),
        (u2.dropWhile (· ≠ ':')).tail) := by
      simp only [splitScheme, hf, if_true]
    have hf' := hf
    simp only [fireScheme, Bool.and_eq_true] at hf'
    obtain ⟨⟨⟨hcont, hne⟩, hmatch⟩, hall⟩ := hf'
    cases hb : u2.takeWhile (· ≠ ':') with
    | nil =>
      rw [hb] at hne
      simp at hne
    | cons c cs =>
      rw [hb] at hmatch hall
      have halpha : c.isAlpha = true := hmatch
      rw [hsp, hb]
      refine ⟨by simp [pyLower], ?_, ?_, ?_, ?_, ?_⟩
      · intro c' hc'
        have hlc : Char.toLower c = c' := by
          simpa [pyLower] using hc'
        rw [← hlc]
        exact toLower_isAlpha halpha
      · show ((c :: cs).map Char.toLower).all schemeChar = true
        rw [List.all_map, List.all_eq_true]
        intro x hx
        exact schemeChar_toLower (List.all_eq_true.mp hall x hx)
      · exact pyLower_idem _
      · intro c' hc'
        obtain ⟨b, hb', hbc⟩ := List.mem_map.mp hc'
        refine ⟨b, ?_, hbc.symm⟩
        exact mem_of_mem_takeWhile (hb ▸ hb')
      · intro c' hc'
        exact mem_of_mem_dropWhile (mem_of_mem_tail hc')

theorem clip_nil (c : Char) :
    (if ([] : List Char).contains c then splitOnceChar c [] else ([], ([] : List Char))).1
      = [] := rfl

theorem char_of_toNat {c d : Char} (h : c.toNat = d.toNat) : c = d :=
  char_eq_iff_toNat.mpr h

/-! ### The netloc, fragment and query stages of urlsplit -/

theorem urlsplit_tail_spec {url3 : List Char} {np fr qu : List Char × List Char}
    (hnp : np = if url3.take 2 = ['/', '/'] then splitNetloc (url3.drop 2) else ([], url3))
    (hfr : fr = if np.2.contains '#' then splitOnceChar '#' np.2 else (np.2, []))
    (hqu : qu = if fr.1.contains '?' then splitOnceChar '?' fr.1 else (fr.1, []))
    (hclean : ∀ c ∈ url3, unsafeByte c = false) :
    np.1.all (fun c => !netlocDelim c) = true ∧
    qu.1.contains '#' = false ∧
    qu.1.contains '?' = false ∧
    (url3.take 2 = ['/', '/'] → (qu.1 = [] ∨ qu.1.head? = some '/')) ∧
    (url3.take 2 ≠ ['/', '/'] → np.1 = [] ∧ ∃ t, qu.1 ++ t = url3) ∧
    (np.1 ≠ [] → url3.take 2 = ['/', '/']) ∧
    (∀ c ∈ np.1, unsafeByte c = false) ∧
    (∀ c ∈ qu.1, unsafeByte c = false) := by
  have hfr1pre : ∃ t, fr.1 ++ t = np.2 := by
    rw [hfr]
    exact clip_fst_pre '#' np.2
  have hfr1nohash : fr.1.contains '#' = false := by
    rw [hfr]
    exact clip_fst_no_self '#' np.2
  have hqu1pre : ∃ t, qu.1 ++ t = fr.1 := by
    rw [hqu]
    exact clip_fst_pre '?' fr.1
  have hqu1nohash : qu.1.contains '#' = false := by
    rw [hqu]
    exact clip_fst_contains_false '?' hfr1nohash
  have hqu1noq : qu.1.contains '?' = false := by
    rw [hqu]
    exact clip_fst_no_self '?' fr.1
  have hqu1pre2 : ∃ t, qu.1 ++ t = np.2 := pre_trans hqu1pre hfr1pre
  by_cases hT : url3.take 2 = ['/', '/']
  · rw [if_pos hT] at hnp
    have hN : np.1 = (url3.drop 2).takeWhile (fun c => !netlocDelim c) := by
      rw [hnp]; rfl
    have hx : np.2 = (url3.drop 2).dropWhile (fun c => !netlocDelim c) := by
      rw [hnp]; rfl
    have hxhead : ∀ c, np.2.head? = some c → netlocDelim c = true := by
      intro c hc
      rw [hx] at hc
      have := head?_dropWhile_not hc
      simpa using this
    have hxsub : ∀ c ∈ np.2, c ∈ url3 := by
      intro c hc
      rw [hx] at hc
      exact mem_of_mem_dropN (mem_of_mem_dropWhile hc)
    refine ⟨?_, hqu1nohash, hqu1noq, ?_, ?_, ?_, ?_, ?_⟩
    · rw [hN, List.all_eq_true]
      intro x hx'
      exact List.mem_takeWhile_imp (p := fun c => !netlocDelim c) hx'
    · intro _
      cases hxc : np.2 with
      | nil =>
        left
        have hfr1nil : fr.1 = [] := by
          rw [hfr, hxc]
          exact clip_nil '#'
        rw [hqu, hfr1nil]
        exact clip_nil '?'
      | cons c0 t0 =>
        have hdel := hxhead c0 (by rw [hxc]; rfl)
        have hd0 : np.2.head? = some c0 := by rw [hxc]; rfl
        rcases netlocDelim_iff.mp hdel with hcn | hcn | hcn
        · -- the head of the remainder is a slash
          have hc0 : c0 = '/' := char_of_toNat (by rw [hcn]; decide)
          subst hc0
          have hfrc : fr.1 = [] ∨ fr.1.head? = np.2.head? := by
            rw [hfr]
            exact clip_fst_head '#' np.2
          rcases hfrc with hfc | hfc
          · left
            rw [hqu, hfc]
            exact clip_nil '?'
          · have hquc : qu.1 = [] ∨ qu.1.head? = fr.1.head? := by
              rw [hqu]
              exact clip_fst_head '?' fr.1
            rcases hquc with hqc | hqc
            · exact Or.inl hqc
            · right
              rw [hqc, hfc, hd0]
        · -- the head of the remainder is a question mark
          have hc0 : c0 = '?' := char_of_toNat (by rw [hcn]; decide)
          subst hc0
          have hfrc : fr.1 = [] ∨ fr.1.head? = np.2.head? := by
            rw [hfr]
            exact clip_fst_head '#' np.2
          rcases hfrc with hfc | hfc
          · left
            rw [hqu, hfc]
            exact clip_nil '?'
          · left
            rw [hqu]
            exact clip_fst_head_self (by rw [hfc, hd0])
        · -- the head of the remainder is a hash
          have hc0 : c0 = '#' := char_of_toNat (by rw [hcn]; decide)
          subst hc0
          have hfc : fr.1 = [] := by
            rw [hfr]
            exact clip_fst_head_self hd0
          left
          rw [hqu, hfc]
          exact clip_nil '?'
    · intro hcon
      exact absurd hT hcon
    · intro _
      exact hT
    · intro c hc
      rw [hN] at hc
      exact hclean c (mem_of_mem_dropN (mem_of_mem_takeWhile hc))
    · intro c hc
      obtain ⟨t, ht⟩ := hqu1pre2
      exact hclean c (hxsub c (ht ▸ List.mem_append_left t hc))
  · rw [if_neg hT] at hnp
    have hN : np.1 = [] := by rw [hnp]
    have hx : np.2 = url3 := by rw [hnp]
    refine ⟨?_, hqu1nohash, hqu1noq, ?_, ?_, ?_, ?_, ?_⟩
    · rw [hN]
      rfl
    · intro hcon
      exact absurd hcon hT
    · intro _
      refine ⟨hN, ?_⟩
      rw [← hx]
      exact hqu1pre2
    · intro hcon
      exact absurd hN hcon
    · intro c hc
      rw [hN] at hc
      cases hc
    · intro c hc
      obtain ⟨t, ht⟩ := hqu1pre2
      rw [hx] at ht
      exact hclean c (ht ▸ List.mem_append_left t hc)

theorem fireScheme_of_head_slash {x : List Char} (hx : x ≠ [])
    (hh : x.head? = some '/') : fireScheme x = false := by
  cases x with
  | nil => exact absurd rfl hx
  | cons c t =>
    have hc : c = '/' := by injection hh
    subst hc
    exact fireScheme_slash t

/-! ### The components produced by normalize_url satisfy the invariants
needed for reparsing. -/

theorem normComponents_spec {l s n p : List Char} (h : normComponents l = (s, n, p)) :
    (s = [] ∨ ((∀ c, s.head? = some c → c.isAlpha = true) ∧ s.all schemeChar = true ∧
      pyLower s = s)) ∧
    pyLower n = n ∧
    n.all (fun c => !netlocDelim c) = true ∧
    p ≠ [] ∧
    p.contains '#' = false ∧
    p.contains '?' = false ∧
    (lastSegment p).contains ';' = false ∧
    fixPath p = p ∧
    (n ≠ [] → p.head? = some '/') ∧
    (s = [] → n = [] → fireScheme p = false) ∧
    (∀ c ∈ s, unsafeByte c = false) ∧
    (∀ c ∈ n, unsafeByte c = false) ∧
    (∀ c ∈ p, unsafeByte c = false) ∧
    (s = [] → n = [] → ∀ c, p.head? = some c → c0OrSpace c = false) := by
  set U2 : List Char := ((pyStrip l).dropWhile c0OrSpace).filter (fun c => !unsafeByte c)
    with hU2
  set SP : List Char × List Char := splitScheme U2 with hSP
  set NP : List Char × List Char :=
    if SP.2.take 2 = ['/', '/'] then splitNetloc (SP.2.drop 2) else ([], SP.2) with hNP
  set FR : List Char × List Char :=
    if NP.2.contains '#' then splitOnceChar '#' NP.2 else (NP.2, []) with hFR
  set QU : List Char × List Char :=
    if FR.1.contains '?' then splitOnceChar '?' FR.1 else (FR.1, []) with hQU
  have hcomp : normComponents l = (pyLower (if SP.1.isEmpty then [] else SP.1),
      pyLower NP.1,
      fixPath (if (splitparamsM QU.1).1.isEmpty then ['/'] else (splitparamsM QU.1).1)) := rfl
  rw [hcomp] at h
  rw [Prod.mk.injEq, Prod.mk.injEq] at h
  obtain ⟨hs, hn, hp⟩ := h
  clear_value U2 SP NP FR QU
  have hu2clean : ∀ c ∈ U2, unsafeByte c = false := by
    intro c hc
    rw [hU2] at hc
    have := (List.mem_filter.mp hc).2
    simpa using this
  have hu2head : ∀ c, U2.head? = some c → c0OrSpace c = false := by
    intro c hc
    rw [hU2] at hc
    have hfh : (((pyStrip l).dropWhile c0OrSpace).filter (fun c => !unsafeByte c)).head? =
        ((pyStrip l).dropWhile c0OrSpace).head? := by
      apply filter_head
      intro b hb
      have hb0 : c0OrSpace b = false := head?_dropWhile_not hb
      cases hub : unsafeByte b
      · rfl
      · exact absurd (unsafe_imp_c0 hub) (by simp [hb0])
    rw [hfh] at hc
    exact head?_dropWhile_not hc
  have hdich := splitScheme_spec U2
  rw [← hSP] at hdich
  have hclean3 : ∀ c ∈ SP.2, unsafeByte c = false := by
    rcases hdich with ⟨_, h2, _⟩ | ⟨_, _, _, _, _, hsub⟩
    · rw [h2]
      exact hu2clean
    · intro c hc
      exact hu2clean c (hsub c hc)
  obtain ⟨tC1, tC2, tC3, tC4, tC5, tC6, tC7, tC8⟩ := urlsplit_tail_spec hNP hFR hQU hclean3
  have hsemi := splitparams_fst_no_semi QU.1
  have hPPpre := splitparamsM_fst_pre QU.1
  have hPPhead := splitparams_fst_head QU.1
  have hPPclean : ∀ c ∈ (splitparamsM QU.1).1, unsafeByte c = false := by
    intro c hc
    obtain ⟨t, ht⟩ := hPPpre
    exact tC8 c (ht ▸ List.mem_append_left t hc)
  have hnil_n : NP.1 = [] → n = [] := by
    intro hx
    rw [← hn, hx]
    rfl
  have hnil_n' : n = [] → NP.1 = [] := by
    intro hx
    rw [← hn] at hx
    exact pyLower_nil_iff.mp hx
  have hs_nil : s = [] → SP.1 = [] := by
    intro hx
    rw [← hs, pyLower_nil_iff] at hx
    by_cases he : SP.1.isEmpty = true
    · exact List.isEmpty_iff.mp he
    · rw [if_neg he] at hx
      exact hx
  have hG1 : s = [] ∨ ((∀ c, s.head? = some c → c.isAlpha = true) ∧
      s.all schemeChar = true ∧ pyLower s = s) := by
    rcases hdich with ⟨h1, _, _⟩ | ⟨hne1, hhead1, hall1, hlow1, _, _⟩
    · left
      rw [← hs, h1]
      rfl
    · right
      have hsv : SP.1 = s := by
        rw [← hs, if_neg (fun hcon => hne1 (List.isEmpty_iff.mp hcon)), hlow1]
      rw [← hsv]
      exact ⟨hhead1, hall1, hlow1⟩
  have hG2 : pyLower n = n := by
    rw [← hn]
    exact pyLower_idem _
  have hG3 : n.all (fun c => !netlocDelim c) = true := by
    rw [← hn]
    show (NP.1.map Char.toLower).all (fun c => !netlocDelim c) = true
    rw [List.all_map, List.all_eq_true]
    intro x hx
    show (!netlocDelim (Char.toLower x)) = true
    rw [netlocDelim_toLower]
    exact List.all_eq_true.mp tC1 x hx
  have hGsclean : ∀ c ∈ s, unsafeByte c = false := by
    rcases hdich with ⟨h1, _, _⟩ | ⟨hne1, _, _, hlow1, hmem1, _⟩
    · have hsv : s = [] := by
        rw [← hs, h1]
        rfl
      rw [hsv]
      intro c hc
      cases hc
    · have hsv : SP.1 = s := by
        rw [← hs, if_neg (fun hcon => hne1 (List.isEmpty_iff.mp hcon)), hlow1]
      rw [← hsv]
      intro c hc
      obtain ⟨b, hb, hbc⟩ := hmem1 c hc
      rw [hbc, unsafeByte_toLower]
      exact hu2clean b hb
  have hGnclean : ∀ c ∈ n, unsafeByte c = false := by
    rw [← hn]
    exact clean_pyLower tC7
  by_cases hPP : (splitparamsM QU.1).1 = []
  · have hpv : p = ['/'] := by
      rw [← hp, hPP]
      rfl
    subst hpv
    refine ⟨hG1, hG2, hG3, by simp, by decide, by decide, by decide, by decide,
      fun _ => rfl, fun _ _ => by decide, hGsclean, hGnclean, ?_, ?_⟩
    · intro c hc
      simp at hc
      subst hc
      decide
    · intro _ _ c hc
      have hcs : c = '/' := by
        injection hc with hx
        exact hx.symm
      subst hcs
      decide
  · have hbase : (if (splitparamsM QU.1).1.isEmpty then ['/'] else (splitparamsM QU.1).1)
        = (splitparamsM QU.1).1 := by
      rw [if_neg (fun hcon => hPP (List.isEmpty_iff.mp hcon))]
    have hpfix : fixPath (splitparamsM QU.1).1 = p := by
      rw [← hp, hbase]
    have hpcases : p = (splitparamsM QU.1).1 ∨ p = (splitparamsM QU.1).1 ++ ['/'] := by
      rcases fixPath_cases (splitparamsM QU.1).1 with he | he
      · left
        rw [← hpfix, he]
      · right
        rw [← hpfix, he]
    have hne_p : p ≠ [] := by
      rw [← hpfix]
      exact fixPath_ne_nil hPP
    have hheadp : p.head? = (splitparamsM QU.1).1.head? := by
      rw [← hpfix]
      exact fixPath_head hPP
    have hPPheadr : (splitparamsM QU.1).1.head? = QU.1.head? := by
      rcases hPPhead with hx | hx
      · exact absurd hx hPP
      · exact hx
    have hQUnil : QU.1 ≠ [] := by
      intro hq
      rw [hq] at hPP
      exact hPP rfl
    have hslash_head : (QU.1 = [] ∨ QU.1.head? = some '/') → p.head? = some '/' := by
      intro hd
      rcases hd with hq | hq
      · exact absurd hq hQUnil
      · rw [hheadp, hPPheadr]
        exact hq
    refine ⟨hG1, hG2, hG3, hne_p, ?_, ?_, ?_, ?_, ?_, ?_, hGsclean, hGnclean, ?_, ?_⟩
    · rcases hpcases with he | he
      · rw [he]
        exact pre_contains_false hPPpre tC2
      · rw [he]
        exact contains_concat_slash (pre_contains_false hPPpre tC2) (by decide)
    · rcases hpcases with he | he
      · rw [he]
        exact pre_contains_false hPPpre tC3
      · rw [he]
        exact contains_concat_slash (pre_contains_false hPPpre tC3) (by decide)
    · rcases hpcases with he | he
      · rw [he]
        exact hsemi
      · rw [he, lastSegment_concat_slash]
        rfl
    · rw [← hpfix]
      exact fixPath_idem _
    · intro hne
      have hT := tC6 (fun hx => hne (hnil_n hx))
      exact hslash_head (tC4 hT)
    · intro hse hnn
      rcases hdich with ⟨h1, hU, hfire⟩ | ⟨hne1, _⟩
      · by_cases hT : SP.2.take 2 = ['/', '/']
        · exact fireScheme_of_head_slash hne_p (hslash_head (tC4 hT))
        · obtain ⟨_, t, hpre⟩ := tC5 hT
          rw [hU] at hpre
          obtain ⟨t2, ht2⟩ := hPPpre
          have hcomb : (splitparamsM QU.1).1 ++ (t2 ++ t) = U2 := by
            rw [← List.append_assoc, ht2, hpre]
          have hfp := fireScheme_pre (a := (splitparamsM QU.1).1) (t := t2 ++ t)
            (by rw [hcomb]; exact hfire)
          rcases hpcases with he | he
          · rw [he]
            exact hfp.1
          · rw [he]
            exact hfp.2
      · exact absurd (hs_nil hse) hne1
    · intro c hc
      rcases hpcases with he | he
      · rw [he] at hc
        exact hPPclean c hc
      · rw [he] at hc
        rcases List.mem_append.mp hc with hx | hx
        · exact hPPclean c hx
        · simp at hx
          subst hx
          decide
    · intro hse hnn c hc
      rcases hdich with ⟨h1, hU, hfire⟩ | ⟨hne1, _⟩
      · by_cases hT : SP.2.take 2 = ['/', '/']
        · have hph := hslash_head (tC4 hT)
          rw [hph] at hc
          have hcs : c = '/' := by
            injection hc with hx
            exact hx.symm
          subst hcs
          decide
        · obtain ⟨_, t, hpre⟩ := tC5 hT
          rw [hU] at hpre
          have hcu : U2.head? = QU.1.head? := by
            rw [← hpre, head?_append_ne hQUnil]
          apply hu2head
          rw [hcu, ← hPPheadr, ← hheadp]
          exact hc
      · exact absurd (hs_nil hse) hne1

/-! ### Reparsing a reassembled url -/

theorem dropWhile_eq_self_of_head {q : Char → Bool} {l : List Char}
    (h : ∀ c, l.head? = some c → q c = false) : l.dropWhile q = l := by
  cases l with
  | nil => rfl
  | cons c t =>
    rw [List.dropWhile_cons, if_neg]
    rw [h c rfl]
    simp

theorem filter_eq_self_of_clean {l : List Char} (h : ∀ c ∈ l, unsafeByte c = false) :
    l.filter (fun c => !unsafeByte c) = l := by
  rw [List.filter_eq_self]
  intro a ha
  rw [h a ha]
  rfl

theorem clean_cons (c0 : Char) {l : List Char} (h0 : unsafeByte c0 = false)
    (h : ∀ c ∈ l, unsafeByte c = false) : ∀ c ∈ c0 :: l, unsafeByte c = false := by
  intro c hc
  rcases List.mem_cons.mp hc with he | hm
  · rw [he]
    exact h0
  · exact h c hm

theorem clean_append {a b : List Char} (ha : ∀ c ∈ a, unsafeByte c = false)
    (hb : ∀ c ∈ b, unsafeByte c = false) : ∀ c ∈ a ++ b, unsafeByte c = false := by
  intro c hc
  rcases List.mem_append.mp hc with hm | hm
  · exact ha c hm
  · exact hb c hm

theorem isEmpty_eq_false_of_ne {l : List Char} (h : l ≠ []) : l.isEmpty = false := by
  cases l with
  | nil => exact absurd rfl h
  | cons c t => rfl

theorem urlsplit_compute_noNet {r0 S rest : List Char}
    (hdrop : r0.dropWhile c0OrSpace = r0)
    (hfilt : r0.filter (fun c => !unsafeByte c) = r0)
    (hsp : splitScheme r0 = (S, rest))
    (hSC : (if S.isEmpty then [] else S) = S)
    (hT : rest.take 2 ≠ ['/', '/'])
    (hhash : rest.contains '#' = false)
    (hq : rest.contains '?' = false) :
    urlsplitM [] r0 = ⟨S, [], rest, [], [], []⟩ := by
  simp only [urlsplitM]
  rw [hdrop, hfilt, hsp]
  dsimp only
  rw [hSC, if_neg hT]
  dsimp only
  have hm1 : ¬ '#' ∈ rest := contains_false_iff.mp hhash
  have hm2 : ¬ '?' ∈ rest := contains_false_iff.mp hq
  simp [hm1, hm2]

theorem urlsplit_compute_net {r0 S n' p' : List Char}
    (hdrop : r0.dropWhile c0OrSpace = r0)
    (hfilt : r0.filter (fun c => !unsafeByte c) = r0)
    (hsp : splitScheme r0 = (S, '/' :: '/' :: (n' ++ p')))
    (hSC : (if S.isEmpty then [] else S) = S)
    (hn : n'.all (fun c => !netlocDelim c) = true)
    (hp : p'.head? = some '/')
    (hhash : p'.contains '#' = false)
    (hq : p'.contains '?' = false) :
    urlsplitM [] r0 = ⟨S, n', p', [], [], []⟩ := by
  obtain ⟨pt, hpt⟩ : ∃ pt, p' = '/' :: pt := by
    cases p' with
    | nil => cases hp
    | cons c t =>
      have : c = '/' := by injection hp
      exact ⟨t, by rw [this]⟩
  have htake : (('/' : Char) :: '/' :: (n' ++ p')).take 2 = ['/', '/'] := rfl
  have hnl : (n' ++ p').takeWhile (fun c => !netlocDelim c) = n' := by
    rw [takeWhile_append_all hn, hpt, List.takeWhile_cons, if_neg (by decide)]
    simp
  have hnd : (n' ++ p').dropWhile (fun c => !netlocDelim c) = p' := by
    rw [dropWhile_append_all hn, hpt, List.dropWhile_cons, if_neg (by decide)]
  have hsn : splitNetloc (n' ++ p') = (n', p') := by
    unfold splitNetloc
    rw [hnl, hnd]
  have hdrop2 : List.drop 2 ('/' :: '/' :: (n' ++ p')) = n' ++ p' := rfl
  simp only [urlsplitM]
  rw [hdrop, hfilt, hsp]
  dsimp only
  rw [hSC, if_pos htake, hdrop2, hsn]
  dsimp only
  have hm1 : ¬ '#' ∈ p' := contains_false_iff.mp hhash
  have hm2 : ¬ '?' ∈ p' := contains_false_iff.mp hq
  simp [hm1, hm2]

theorem normComponents_of_parse {r0 S N P : List Char}
    (hstrip : pyStrip r0 = r0)
    (hsplit : urlsplitM [] r0 = ⟨S, N, P, [], [], []⟩)
    (hsemi : (lastSegment P).contains ';' = false)
    (hPne : P ≠ [])
    (hfix : fixPath P = P)
    (hlowS : pyLower S = S) (hlowN : pyLower N = N) :
    normComponents r0 = (S, N, P) := by
  have hparse : urlparseM [] r0 = ⟨S, N, P, [], [], []⟩ := by
    simp only [urlparseM]
    rw [hsplit]
    dsimp only
    rw [splitparamsM_no_semi hsemi]
  unfold normComponents
  rw [hstrip, hparse]
  dsimp only
  rw [hlowS, hlowN, if_neg (fun hcon => hPne (List.isEmpty_iff.mp hcon)), hfix]

theorem normChars_of_components {r0 S N P : List Char}
    (hcomp : normComponents r0 = (S, N, P))
    (huns : urlunsplitM S N P [] [] = r0) :
    normChars r0 = r0 := by
  unfold normChars
  rw [hcomp]
  show urlunsplitM S N P [] [] = r0
  exact huns

theorem contains_cons_false {c0 d : Char} {l : List Char} (h : l.contains d = false)
    (hne : d ≠ c0) : (c0 :: l).contains d = false := by
  rw [contains_false_iff] at h ⊢
  intro hm
  rcases List.mem_cons.mp hm with he | hm2
  · exact hne he
  · exact h hm2

/-- Reassembling the normalized components and normalizing again returns the
same string, provided the components satisfy the parse invariants, the
reassembled url keeps no surrounding whitespace, and an empty netloc is not
paired with a path starting with a double slash. -/
theorem norm_unsplit_idem {s n p : List Char}
    (G1 : s = [] ∨ ((∀ c, s.head? = some c → c.isAlpha = true) ∧ s.all schemeChar = true ∧
      pyLower s = s))
    (G2 : pyLower n = n)
    (G3 : n.all (fun c => !netlocDelim c) = true)
    (G4 : p ≠ [])
    (G5 : p.contains '#' = false)
    (G5b : p.contains '?' = false)
    (G6 : (lastSegment p).contains ';' = false)
    (G7 : fixPath p = p)
    (G8 : n ≠ [] → p.head? = some '/')
    (G9 : s = [] → n = [] → fireScheme p = false)
    (K1 : ∀ c ∈ s, unsafeByte c = false)
    (K2 : ∀ c ∈ n, unsafeByte c = false)
    (K3 : ∀ c ∈ p, unsafeByte c = false)
    (G11 : s = [] → n = [] → ∀ c, p.head? = some c → c0OrSpace c = false)
    (H2 : n = [] → p.take 2 ≠ ['/', '/'])
    (hstrip : pyStrip (urlunsplitM s n p [] []) = urlunsplitM s n p [] []) :
    normChars (urlunsplitM s n p [] []) = urlunsplitM s n p [] [] := by
  by_cases hn0 : n = []
  · subst hn0
    by_cases hs0 : s = []
    · subst hs0
      have hr : urlunsplitM [] [] p [] [] = p := rfl
      rw [hr] at hstrip ⊢
      have hdrop : p.dropWhile c0OrSpace = p := dropWhile_eq_self_of_head (G11 rfl rfl)
      have hfilt := filter_eq_self_of_clean K3
      have hsp : splitScheme p = ([], p) := splitScheme_no_fire (G9 rfl rfl)
      have hsplit := urlsplit_compute_noNet hdrop hfilt hsp rfl (H2 rfl) G5 G5b
      have hcomp := normComponents_of_parse hstrip hsplit G6 G4 G7 rfl rfl
      exact normChars_of_components hcomp hr
    · obtain ⟨hhead, hall, hlow⟩ := G1.resolve_left hs0
      have hsE : s.isEmpty = false := isEmpty_eq_false_of_ne hs0
      have hdropS : ∀ rest : List Char,
          (s ++ ':' :: rest).dropWhile c0OrSpace = s ++ ':' :: rest := by
        intro rest
        apply dropWhile_eq_self_of_head
        intro c hc
        rw [head?_append_ne hs0] at hc
        exact isAlpha_not_c0 (hhead c hc)
      by_cases hNL : usesNetloc.contains s = true
      · have hNLm : s ∈ usesNetloc := contains_true_iff.mp hNL
        by_cases hph : p.head? = some '/'
        · -- netloc-using scheme, path already absolute
          have hr : urlunsplitM s [] p [] [] = s ++ ':' :: '/' :: '/' :: p := by
            simp [urlunsplitM, hsE, hNL, hNLm, hph, decide_eq_true (H2 rfl)]
          rw [hr] at hstrip ⊢
          have hfiltR := filter_eq_self_of_clean
            (clean_append K1 (clean_cons ':' (by decide)
              (clean_cons '/' (by decide) (clean_cons '/' (by decide) K3))))
          have hspR := (@splitScheme_fire s ('/' :: '/' :: p) hs0 hhead hall).2
          rw [hlow] at hspR
          have hspR2 : splitScheme (s ++ ':' :: '/' :: '/' :: p)
              = (s, '/' :: '/' :: ([] ++ p)) := hspR
          have hsplit := urlsplit_compute_net (hdropS _) hfiltR hspR2
            (by simp [hsE]) rfl hph G5 G5b
          have hcomp := normComponents_of_parse hstrip hsplit G6 G4 G7 hlow rfl
          exact normChars_of_components hcomp hr
        · -- netloc-using scheme, relative path gets a slash prepended
          obtain ⟨pc, pt, hpeq, hpcne⟩ : ∃ pc pt, p = pc :: pt ∧ pc ≠ '/' := by
            cases hpx : p with
            | nil => exact absurd hpx G4
            | cons pc pt =>
              refine ⟨pc, pt, rfl, ?_⟩
              intro hcon
              apply hph
              rw [hpx, hcon]
              rfl
          have hT2 : ('/' :: p).take 2 ≠ ['/', '/'] := by
            rw [hpeq]
            intro hcon
            simp at hcon
            exact hpcne hcon
          have hr : urlunsplitM s [] p [] [] = s ++ ':' :: '/' :: '/' :: '/' :: p := by
            simp [urlunsplitM, hsE, hNL, hNLm, hph, decide_eq_true (H2 rfl),
              isEmpty_eq_false_of_ne G4]
          rw [hr] at hstrip ⊢
          have hfiltR := filter_eq_self_of_clean
            (clean_append K1 (clean_cons ':' (by decide) (clean_cons '/' (by decide)
              (clean_cons '/' (by decide) (clean_cons '/' (by decide) K3)))))
          have hspR := (@splitScheme_fire s ('/' :: '/' :: '/' :: p) hs0 hhead hall).2
          rw [hlow] at hspR
          have hspR2 : splitScheme (s ++ ':' :: '/' :: '/' :: '/' :: p)
              = (s, '/' :: '/' :: ([] ++ ('/' :: p))) := hspR
          have hsplit := urlsplit_compute_net (hdropS _)
            hfiltR hspR2 (by simp [hsE]) rfl rfl
            (contains_cons_false G5 (by decide)) (contains_cons_false G5b (by decide))
          have hsemi2 : (lastSegment ('/' :: p)).contains ';' = false := by
            rw [lastSegment_cons_slash]
            exact G6
          have hfix2 := fixPath_cons_slash G4 G7
          have hcomp := normComponents_of_parse hstrip hsplit hsemi2 (by simp) hfix2
            hlow rfl
          have hr2 : urlunsplitM s [] ('/' :: p) [] [] =
              s ++ ':' :: '/' :: '/' :: '/' :: p := by
            simp [urlunsplitM, hsE, hNL, hNLm, decide_eq_true hT2]
            intro hcon
            rw [hpeq] at hcon
            simp at hcon
            exact absurd hcon hpcne
          exact normChars_of_components hcomp hr2
      · -- scheme not in uses_netloc
        have hNLf : usesNetloc.contains s = false := bool_eq_false_of_not hNL
        have hNLm : ¬ s ∈ usesNetloc := contains_false_iff.mp hNLf
        have hr : urlunsplitM s [] p [] [] = s ++ ':' :: p := by
          simp [urlunsplitM, hsE, hNLf, hNLm]
        rw [hr] at hstrip ⊢
        have hfiltR := filter_eq_self_of_clean
          (clean_append K1 (clean_cons ':' (by decide) K3))
        have hspR := (@splitScheme_fire s p hs0 hhead hall).2
        rw [hlow] at hspR
        have hsplit := urlsplit_compute_noNet (hdropS _) hfiltR hspR (by simp [hsE])
          (H2 rfl) G5 G5b
        have hcomp := normComponents_of_parse hstrip hsplit G6 G4 G7 hlow rfl
        exact normChars_of_components hcomp hr
  · -- nonempty netloc
    have hph := G8 hn0
    have hnE : n.isEmpty = false := isEmpty_eq_false_of_ne hn0
    by_cases hs0 : s = []
    · subst hs0
      have hr : urlunsplitM [] n p [] [] = '/' :: '/' :: (n ++ p) := by
        simp [urlunsplitM, hnE, hph]
      rw [hr] at hstrip ⊢
      have hdropR : ('/' :: '/' :: (n ++ p)).dropWhile c0OrSpace =
          '/' :: '/' :: (n ++ p) := by
        apply dropWhile_eq_self_of_head
        intro c hc
        have : c = '/' := by injection hc with hx; exact hx.symm
        subst this
        decide
      have hfiltR := filter_eq_self_of_clean
        (clean_cons '/' (by decide) (clean_cons '/' (by decide) (clean_append K2 K3)))
      have hspR : splitScheme ('/' :: '/' :: (n ++ p)) =
          ([], '/' :: '/' :: (n ++ p)) := splitScheme_no_fire (fireScheme_slash _)
      have hsplit := urlsplit_compute_net hdropR hfiltR hspR rfl G3 hph G5 G5b
      have hcomp := normComponents_of_parse hstrip hsplit G6 G4 G7 rfl G2
      exact normChars_of_components hcomp hr
    · obtain ⟨hhead, hall, hlow⟩ := G1.resolve_left hs0
      have hsE : s.isEmpty = false := isEmpty_eq_false_of_ne hs0
      have hr : urlunsplitM s n p [] [] = s ++ ':' :: '/' :: '/' :: (n ++ p) := by
        simp [urlunsplitM, hnE, hph, hsE]
      rw [hr] at hstrip ⊢
      have hdropR : (s ++ ':' :: '/' :: '/' :: (n ++ p)).dropWhile c0OrSpace =
          s ++ ':' :: '/' :: '/' :: (n ++ p) := by
        apply dropWhile_eq_self_of_head
        intro c hc
        rw [head?_append_ne hs0] at hc
        exact isAlpha_not_c0 (hhead c hc)
      have hfiltR := filter_eq_self_of_clean
        (clean_append K1 (clean_cons ':' (by decide) (clean_cons '/' (by decide)
          (clean_cons '/' (by decide) (clean_append K2 K3)))))
      have hspR := (@splitScheme_fire s ('/' :: '/' :: (n ++ p)) hs0 hhead hall).2
      rw [hlow] at hspR
      have hsplit := urlsplit_compute_net hdropR hfiltR hspR (by simp [hsE]) G3 hph G5 G5b
      have hcomp := normComponents_of_parse hstrip hsplit G6 G4 G7 hlow G2
      exact normChars_of_components hcomp hr

/-- C2 (amended): normalize_url is idempotent on every input whose parsed
netloc is square-bracket-free and ASCII (so that urlparse takes its normal
return path rather than raising ValueError; case folding does not affect
this, so the condition is stated on the lowered netloc), whose normalized
form retains no leading or trailing Python whitespace, and whose parse does
not pair an empty netloc with a path whose first two characters are
slashes. -/
theorem c2_amended_idempotent (u : String)
    (h0 : netlocSafe (normComponents u.toList).2.1 = true)
    (h1 : pyStrip (normalize_url u).toList = (normalize_url u).toList)
    (h2 : (normComponents u.toList).2.1 = [] →
      (normComponents u.toList).2.2.take 2 ≠ ['/', '/']) :
    normalize_url (normalize_url u) = normalize_url u := by
  obtain ⟨s, n, p, hc⟩ : ∃ s n p, normComponents u.toList = (s, n, p) := ⟨_, _, _, rfl⟩
  obtain ⟨G1, G2, G3, G4, G5, G5b, G6, G7, G8, G9, K1, K2, K3, G11⟩ :=
    normComponents_spec hc
  have hH2 : n = [] → p.take 2 ≠ ['/', '/'] := by
    rw [hc] at h2
    exact h2
  have hrchars : normChars u.toList = urlunsplitM s n p [] [] := by
    unfold normChars
    rw [hc]
    rfl
  have hstrip' : pyStrip (urlunsplitM s n p [] []) = urlunsplitM s n p [] [] := by
    have hh : (normalize_url u).toList = normChars u.toList := rfl
    rw [hh, hrchars] at h1
    exact h1
  have hmain := norm_unsplit_idem G1 G2 G3 G4 G5 G5b G6 G7 G8 G9 K1 K2 K3 G11 hH2 hstrip'
  show String.mk (normChars (normChars u.toList)) = String.mk (normChars u.toList)
  rw [hrchars, hmain]

theorem c2_witness :
    (netlocSafe (normComponents ("HTTP://Example.edu/A/B?x=1#frag" : String).toList).2.1
      = true) ∧
    (pyStrip (normalize_url "HTTP://Example.edu/A/B?x=1#frag").toList
      = (normalize_url "HTTP://Example.edu/A/B?x=1#frag").toList) ∧
    ((normComponents ("HTTP://Example.edu/A/B?x=1#frag" : String).toList).2.1 = [] →
      (normComponents ("HTTP://Example.edu/A/B?x=1#frag" : String).toList).2.2.take 2
        ≠ ['/', '/']) ∧
    normalize_url (normalize_url "HTTP://Example.edu/A/B?x=1#frag")
      = normalize_url "HTTP://Example.edu/A/B?x=1#frag" :=
  ⟨by decide, by decide, by decide,
    c2_amended_idempotent _ (by decide) (by decide) (by decide)⟩

end GraphCatalog
